import Mathlib

/-
Verification of the CLOB matching-engine core
(backend/src/engine/order.rs, order_book.rs, matcher.rs, api/orders.rs).

Embedding conventions:
* `rust_decimal::Decimal` (exact fixed-point) is modelled by `Int`: the engine
  only uses comparison, `+`, `-` and `min` on prices and quantities, and those
  are exact on scaled integers.
* `Uuid::new_v4()` is modelled by an explicit fresh-id supply: a `Nat` counter
  threaded through every operation; each draw returns the counter and bumps it.
  Distinct draws yield distinct ids, which is the defining property of v4 UUIDs.
* `Utc::now()` is modelled by an explicit `now : Nat` parameter (milliseconds).
* `BTreeMap<Decimal, PriceLevel>` is modelled by an association list sorted
  strictly ascending by key; `keys().next()` is the head, `keys().next_back()`
  the last element.  `bids` and `asks` both use ascending order, exactly as in
  the source (best bid = last key, best ask = first key).
* The `.unwrap()` on the level lookup inside `OrderBook::match_order` is
  modelled by an `Option` result: `none` is the panic the unwrap would raise.
-/

namespace Clob

/-- Side enum (order.rs lines 11-14). -/
inductive Side where
  | Buy
  | Sell
deriving DecidableEq

/-- OrderStatus enum (order.rs lines 28-33). -/
inductive OrderStatus where
  | Open
  | PartiallyFilled
  | Filled
  | Cancelled
deriving DecidableEq

/-- A limit order (order.rs lines 37-52). Uuid modelled as Nat. -/
structure Order where
  id : Nat
  side : Side
  price : Int
  quantity : Int
  remaining_quantity : Int
  timestamp : Nat
  status : OrderStatus
deriving DecidableEq

/-- Order::new (order.rs lines 56-66); the fresh uuid is drawn from the
supply `g`, the timestamp from `now`. -/
def Order.new (side : Side) (price quantity : Int) (g now : Nat) : Order :=
  { id := g
    side := side
    price := price
    quantity := quantity
    remaining_quantity := quantity
    timestamp := now
    status := OrderStatus.Open }

/-- Order::fill (order.rs lines 78-85). -/
def Order.fill (o : Order) (qty : Int) : Order :=
  let r := o.remaining_quantity - qty
  { o with
    remaining_quantity := r
    status := if r = 0 then OrderStatus.Filled else OrderStatus.PartiallyFilled }

/-- Order::is_filled (order.rs lines 88-90). -/
def Order.is_filled (o : Order) : Bool :=
  o.remaining_quantity == 0

/-- Order::can_match (order.rs lines 69-75). -/
def Order.can_match (o other : Order) : Bool :=
  match o.side, other.side with
  | Side.Buy, Side.Sell => decide (other.price ≤ o.price)
  | Side.Sell, Side.Buy => decide (o.price ≤ other.price)
  | _, _ => false

/-- A trade execution (order.rs lines 95-110). -/
structure Trade where
  id : Nat
  taker_order_id : Nat
  maker_order_id : Nat
  price : Int
  quantity : Int
  taker_side : Side
  timestamp : Nat
deriving DecidableEq

/-- Trade::new (order.rs lines 114-130); the fresh uuid is `g`, the
timestamp `now`.  The caller advances the supply past `g`. -/
def Trade.new (taker_order_id maker_order_id : Nat) (price quantity : Int)
    (taker_side : Side) (g now : Nat) : Trade :=
  { id := g
    taker_order_id := taker_order_id
    maker_order_id := maker_order_id
    price := price
    quantity := quantity
    taker_side := taker_side
    timestamp := now }

/-- A price level (order_book.rs lines 9-14): FIFO queue plus cached total. -/
structure PriceLevel where
  orders : List Order
  total_quantity : Int
deriving DecidableEq

/-- PriceLevel::new (order_book.rs lines 17-19). -/
def PriceLevel.new : PriceLevel :=
  { orders := [], total_quantity := 0 }

/-- PriceLevel::add_order (order_book.rs lines 22-25): push_back plus
total_quantity update. -/
def PriceLevel.add_order (l : PriceLevel) (o : Order) : PriceLevel :=
  { orders := l.orders ++ [o]
    total_quantity := l.total_quantity + o.remaining_quantity }

/-- PriceLevel::pop_front (order_book.rs lines 28-35). -/
def PriceLevel.pop_front (l : PriceLevel) : Option Order × PriceLevel :=
  match l.orders with
  | [] => (none, l)
  | o :: rest => (some o, { orders := rest, total_quantity := l.total_quantity - o.remaining_quantity })

/-- PriceLevel::is_empty (order_book.rs lines 43-45). -/
def PriceLevel.is_empty (l : PriceLevel) : Bool :=
  l.orders.isEmpty

/-- One side of the book: the BTreeMap<Decimal, PriceLevel>, modelled as an
association list sorted strictly ascending by key. -/
abbrev BookSide := List (Int × PriceLevel)

/-- The keys of a book side, in storage (ascending) order. -/
def keys (b : BookSide) : List Int :=
  b.map Prod.fst

/-- BTreeMap keys().next(): the minimum key of a sorted map. -/
def minKey (b : BookSide) : Option Int :=
  (keys b).head?

/-- BTreeMap keys().next_back(): the maximum key of a sorted map. -/
def maxKey (b : BookSide) : Option Int :=
  (keys b).getLast?

/-- BTreeMap get: first entry with the given key. -/
def lookupLevel : BookSide → Int → Option PriceLevel
  | [], _ => none
  | (q, l) :: rest, p => if q = p then some l else lookupLevel rest p

/-- Writing back through a BTreeMap get_mut: replace the entry with key `p`. -/
def setLevel : BookSide → Int → PriceLevel → BookSide
  | [], _, _ => []
  | (q, l0) :: rest, p, l => if q = p then (p, l) :: rest else (q, l0) :: setLevel rest p l

/-- BTreeMap remove. -/
def removeLevel : BookSide → Int → BookSide
  | [], _ => []
  | (q, l0) :: rest, p => if q = p then rest else (q, l0) :: removeLevel rest p

/-- BTreeMap entry(price).or_insert_with(PriceLevel::new).add_order(order)
(order_book.rs lines 121-123), keeping the keys sorted. -/
def insertOrder : BookSide → Int → Order → BookSide
  | [], p, o => [(p, PriceLevel.new.add_order o)]
  | (q, l) :: rest, p, o =>
    if p < q then (p, PriceLevel.new.add_order o) :: (q, l) :: rest
    else if p = q then (q, l.add_order o) :: rest
    else (q, l) :: insertOrder rest p o

/-- The order book (order_book.rs lines 55-65). -/
structure OrderBook where
  bids : BookSide
  asks : BookSide
  symbol : String
deriving DecidableEq

/-- OrderBook::new (order_book.rs lines 69-75). -/
def OrderBook.new (symbol : String) : OrderBook :=
  { bids := [], asks := [], symbol := symbol }

/-- OrderBook::best_bid (order_book.rs lines 78-80): highest bid key. -/
def OrderBook.best_bid (b : OrderBook) : Option Int :=
  maxKey b.bids

/-- OrderBook::best_ask (order_book.rs lines 83-85): lowest ask key. -/
def OrderBook.best_ask (b : OrderBook) : Option Int :=
  minKey b.asks

/-- OrderBook::spread (order_book.rs lines 88-93). -/
def OrderBook.spread (b : OrderBook) : Option Int :=
  match b.best_bid, b.best_ask with
  | some bid, some ask => some (ask - bid)
  | _, _ => none

/-- OrderBook::add_order (order_book.rs lines 115-124): insertion without
matching, on the order's own side. -/
def OrderBook.add_order (b : OrderBook) (o : Order) : OrderBook :=
  match o.side with
  | Side.Buy => { b with bids := insertOrder b.bids o.price o }
  | Side.Sell => { b with asks := insertOrder b.asks o.price o }

/-- Result of the inner while loop of match_order on one price level. -/
structure LevelRes where
  incoming : Order
  orders : List Order
  total_quantity : Int
  trades : List Trade
  gen : Nat
deriving DecidableEq

/-- The inner while loop of OrderBook::match_order (order_book.rs lines
168-196): match the incoming order against the FIFO queue of the level at
`best_price`.  `orders`/`tq` are the level's queue and cached total;
`g` is the fresh-id supply for trade ids, `now` the clock.

Each iteration computes `fill_qty = min(incoming.remaining, maker.remaining)`,
emits a trade at the maker's price, decrements both orders and the level
total, and pops the maker when it is fully filled (the pop subtracts the
popped order's remaining quantity again, as PriceLevel::pop_front does). -/
def matchLevel (incoming : Order) (best_price : Int) (orders : List Order)
    (tq : Int) (g now : Nat) : LevelRes :=
  if hf : incoming.is_filled then
    { incoming := incoming, orders := orders, total_quantity := tq, trades := [], gen := g }
  else
    match orders with
    | [] =>
      { incoming := incoming, orders := [], total_quantity := tq, trades := [], gen := g }
    | maker :: rest =>
      let fill_qty := min incoming.remaining_quantity maker.remaining_quantity
      let trade := Trade.new incoming.id maker.id best_price fill_qty incoming.side g now
      let incoming1 := incoming.fill fill_qty
      let maker1 := maker.fill fill_qty
      let tq1 := tq - fill_qty
      if hmf : maker1.is_filled then
        let r := matchLevel incoming1 best_price rest (tq1 - maker1.remaining_quantity) (g + 1) now
        { incoming := r.incoming, orders := r.orders, total_quantity := r.total_quantity,
          trades := trade :: r.trades, gen := r.gen }
      else
        let r := matchLevel incoming1 best_price (maker1 :: rest) tq1 (g + 1) now
        { incoming := r.incoming, orders := r.orders, total_quantity := r.total_quantity,
          trades := trade :: r.trades, gen := r.gen }
termination_by orders.length * 2 + (if incoming.is_filled then 0 else 1)
decreasing_by
  all_goals
    unfold_let maker1 incoming1 fill_qty at *
    simp only [List.length_cons]
    simp only [Order.is_filled, Order.fill, beq_iff_eq, Bool.not_eq_true,
      beq_eq_false_iff_ne, ne_eq, min_def] at hmf hf ⊢
    repeat' split
    all_goals omega

/-- Best opposing price (order_book.rs lines 144-147): minimum ask key for a
buy, maximum bid key for a sell. -/
def bestOpposingPrice (s : Side) (b : BookSide) : Option Int :=
  match s with
  | Side.Buy => minKey b
  | Side.Sell => maxKey b

/-- The crossing test (order_book.rs lines 155-158). -/
def pricesCross (s : Side) (limit best : Int) : Bool :=
  match s with
  | Side.Buy => decide (best ≤ limit)
  | Side.Sell => decide (limit ≤ best)

/-- Result of the outer matching loop: final incoming order, final opposing
side, trades in emission order, advanced id supply. -/
structure LoopRes where
  incoming : Order
  opposing : BookSide
  trades : List Trade
  gen : Nat
deriving DecidableEq

/-- The outer loop of OrderBook::match_order (order_book.rs lines 138-205),
acting on the opposing book side.  Mirrors the source exactly: stop when the
incoming order is filled, there is no opposing level, or prices do not cross;
otherwise look the best level up (`none` here is the panic of the source's
`.unwrap()`), run the inner loop on it, write the level back (or drop it when
emptied) and continue. -/
def matchLoop (incoming : Order) (opposing : BookSide) (g now : Nat) : Option LoopRes :=
  if hf : incoming.is_filled then
    some { incoming := incoming, opposing := opposing, trades := [], gen := g }
  else
    match bestOpposingPrice incoming.side opposing with
    | none => some { incoming := incoming, opposing := opposing, trades := [], gen := g }
    | some best_price =>
      if pricesCross incoming.side incoming.price best_price then
        match hl : lookupLevel opposing best_price with
        | none => none
        | some level =>
          let r := matchLevel incoming best_price level.orders level.total_quantity g now
          let opposing1 :=
            if r.orders.isEmpty then removeLevel opposing best_price
            else setLevel opposing best_price { orders := r.orders, total_quantity := r.total_quantity }
          match matchLoop r.incoming opposing1 r.gen now with
          | none => none
          | some r2 =>
            some { incoming := r2.incoming, opposing := r2.opposing,
                   trades := r.trades ++ r2.trades, gen := r2.gen }
      else some { incoming := incoming, opposing := opposing, trades := [], gen := g }
termination_by opposing.length * 2 + (if incoming.is_filled then 0 else 1)
decreasing_by
  have post : ∀ (inc : Order) (bp : Int) (os : List Order) (tq : Int) (gg nn : Nat),
      (matchLevel inc bp os tq gg nn).orders = [] ∨
      (matchLevel inc bp os tq gg nn).incoming.is_filled = true := by
    intro inc bp os tq gg nn
    induction inc, bp, os, tq, gg, nn using matchLevel.induct with
    | case1 inc bp os tq g now h => simp [matchLevel.eq_def, h]
    | case2 inc bp tq g now h => simp [matchLevel.eq_def, h]
    | case3 inc bp tq g now hnf maker rest fq i1 m1 t1 hmf ih =>
      unfold_let i1 m1 t1 fq at hmf ih
      rw [matchLevel.eq_def]
      simp only [hnf, hmf]
      simpa using ih
    | case4 inc bp tq g now hnf maker rest fq i1 m1 t1 hmf ih =>
      unfold_let i1 m1 t1 fq at hmf ih
      rw [matchLevel.eq_def]
      simp only [hnf, hmf]
      simpa using ih
  have hrem : ∀ (bs : BookSide) (p : Int) (lv : PriceLevel),
      lookupLevel bs p = some lv → (removeLevel bs p).length + 1 = bs.length := by
    intro bs p lv h
    induction bs with
    | nil => simp [lookupLevel] at h
    | cons e rest ih =>
      obtain ⟨q, l⟩ := e
      by_cases hq : q = p
      · simp [lookupLevel, removeLevel, hq]
      · simp only [lookupLevel, removeLevel, hq, if_false, List.length_cons] at h ⊢
        have := ih h
        omega
  have hset : ∀ (bs : BookSide) (p : Int) (lv : PriceLevel),
      (setLevel bs p lv).length = bs.length := by
    intro bs p lv
    induction bs with
    | nil => rfl
    | cons e rest ih =>
      obtain ⟨q, l⟩ := e
      by_cases hq : q = p <;> simp [setLevel, hq, ih]
  try unfold_let opposing1
  try unfold_let r
  have h1 := hrem opposing best_price level hl
  have h2 := hset opposing best_price
    { orders := (matchLevel incoming best_price level.orders level.total_quantity g now).orders,
      total_quantity := (matchLevel incoming best_price level.orders level.total_quantity g now).total_quantity }
  rcases post incoming best_price level.orders level.total_quantity g now with hpo | hpo
  all_goals clear post hrem hset
  all_goals repeat' split
  all_goals try omega
  all_goals simp_all

/-- OrderBook::match_order (order_book.rs lines 128-213): run the outer loop
on the opposing side, then rest the residual incoming order via add_order when
it still has remaining quantity. -/
def OrderBook.match_order (b : OrderBook) (incoming : Order) (g now : Nat) :
    Option (List Trade × OrderBook × Nat) :=
  let opposing := match incoming.side with
    | Side.Buy => b.asks
    | Side.Sell => b.bids
  match matchLoop incoming opposing g now with
  | none => none
  | some r =>
    let b1 := match incoming.side with
      | Side.Buy => { b with asks := r.opposing }
      | Side.Sell => { b with bids := r.opposing }
    let b2 := if r.incoming.is_filled then b1 else b1.add_order r.incoming
    some (r.trades, b2, r.gen)

/-- OrderBook::order_count (order_book.rs lines 216-220). -/
def OrderBook.order_count (b : OrderBook) : Nat :=
  (b.bids.map (fun e => e.2.orders.length)).sum + (b.asks.map (fun e => e.2.orders.length)).sum

/-- An order request as queued for the engine (order.rs lines 135-139):
note it carries no order id. -/
structure OrderRequest where
  side : Side
  price : Int
  quantity : Int
deriving DecidableEq

/-- MatchingEngine::process_order (matcher.rs lines 61-91): construct an
Order with a fresh id from the supply and the server clock, then match it.
Event broadcasting does not touch the book and is omitted.  Returns the id
the engine processed the order under, the trades, the book and the supply. -/
def process_order (book : OrderBook) (request : OrderRequest) (g now : Nat) :
    Option (Nat × List Trade × OrderBook × Nat) :=
  let order := Order.new request.side request.price request.quantity g now
  let order_id := order.id
  match book.match_order order (g + 1) now with
  | none => none
  | some (trades, book1, g1) => some (order_id, trades, book1, g1)

/-- HTTP status codes used by api/orders.rs submit_order. -/
inductive HttpStatus where
  | accepted
  | badRequest
  | serviceUnavailable
deriving DecidableEq

/-- Request body of the submit API (orders.rs lines 17-24). -/
structure SubmitOrderRequest where
  side : String
  price : Int
  quantity : Int
deriving DecidableEq

/-- Response body of the submit API (orders.rs lines 28-32). -/
structure SubmitOrderResponse where
  success : Bool
  message : String
  order_id : Option Nat
deriving DecidableEq

/-- Side parsing in submit_order (orders.rs lines 40-53); Rust's
to_lowercase is modelled by per-character lowering. -/
def parseSide (s : String) : Option Side :=
  let lowered := String.mk (s.data.map Char.toLower)
  if lowered = "buy" then some Side.Buy
  else if lowered = "sell" then some Side.Sell
  else none

/-- api/orders.rs submit_order (lines 35-106): validate, then draw a fresh
uuid `order_id` (line 78), build the OrderRequest WITHOUT that id (lines
81-85) and forward it to the engine.  The 503 branch (closed engine channel)
is not modelled: the claims concern successful submissions.  Returns the
HTTP reply, the forwarded request (none when validation fails) and the
advanced uuid supply. -/
def submit_order (req : SubmitOrderRequest) (g : Nat) :
    (HttpStatus × SubmitOrderResponse) × Option OrderRequest × Nat :=
  match parseSide req.side with
  | none =>
    ((HttpStatus.badRequest,
      { success := false, message := "Invalid side. Must be buy or sell", order_id := none }),
     none, g)
  | some side =>
    if req.price ≤ 0 then
      ((HttpStatus.badRequest,
        { success := false, message := "Price must be positive", order_id := none }),
       none, g)
    else if req.quantity ≤ 0 then
      ((HttpStatus.badRequest,
        { success := false, message := "Quantity must be positive", order_id := none }),
       none, g)
    else
      ((HttpStatus.accepted,
        { success := true, message := "Order submitted successfully", order_id := some g }),
       some { side := side, price := req.price, quantity := req.quantity }, g + 1)

/-- The book side an order rests on. -/
def sideOf (b : OrderBook) : Side → BookSide
  | Side.Buy => b.bids
  | Side.Sell => b.asks

/-- The book side an incoming order matches against. -/
def opposingOf (b : OrderBook) : Side → BookSide
  | Side.Buy => b.asks
  | Side.Sell => b.bids

/-- All orders stored on a book side, in level-key order then queue order. -/
def ordersOf (s : BookSide) : List Order :=
  (s.map (fun e => e.2.orders)).flatten

/-- Total executed quantity of a trade list. -/
def sumQty (ts : List Trade) : Int :=
  (ts.map (fun t => t.quantity)).sum

/-- Total remaining quantity of a list of orders. -/
def sumRem (os : List Order) : Int :=
  (os.map (fun o => o.remaining_quantity)).sum

/-- The BTreeMap structural invariant: keys strictly ascending. -/
def sortedKeys (s : BookSide) : Prop :=
  List.Pairwise (fun p q => p < q) (keys s)

/-- Level-total invariant of one side: each cached total equals the sum of
remaining quantities of the level's orders. -/
def levelsOk (s : BookSide) : Prop :=
  ∀ e ∈ s, e.2.total_quantity = sumRem e.2.orders

/-- Level-total invariant of the whole book (spec section 8, invariant 2). -/
def levelTotalsOk (b : OrderBook) : Prop :=
  levelsOk b.bids ∧ levelsOk b.asks

/-- All stored orders on a side have positive remaining quantity. -/
def ordersPosSide (s : BookSide) : Prop :=
  ∀ o ∈ ordersOf s, 0 < o.remaining_quantity

/-- All stored orders of the book have positive remaining quantity. -/
def ordersPos (b : OrderBook) : Prop :=
  ordersPosSide b.bids ∧ ordersPosSide b.asks

/-- Orders are stored at the level keyed by their own limit price. -/
def priceConsistentSide (s : BookSide) : Prop :=
  ∀ e ∈ s, ∀ o ∈ e.2.orders, o.price = e.1

/-- Non-crossed book invariant (spec section 8, invariant 1). -/
def nonCrossed (b : OrderBook) : Prop :=
  ∀ bb ba, b.best_bid = some bb → b.best_ask = some ba → bb < ba

instance (s : BookSide) : Decidable (sortedKeys s) := by
  unfold sortedKeys
  infer_instance

instance (s : BookSide) : Decidable (levelsOk s) := by
  unfold levelsOk
  infer_instance

instance (b : OrderBook) : Decidable (levelTotalsOk b) := by
  unfold levelTotalsOk
  infer_instance

instance (s : BookSide) : Decidable (ordersPosSide s) := by
  unfold ordersPosSide
  infer_instance

instance (b : OrderBook) : Decidable (ordersPos b) := by
  unfold ordersPos
  infer_instance

instance (s : BookSide) : Decidable (priceConsistentSide s) := by
  unfold priceConsistentSide
  infer_instance

/-- Fuel-indexed executable twin of matchLevel (same algorithm, structural
recursion on fuel so that concrete instances compute); `none` = out of fuel.
Proven to agree with matchLevel below. -/
def matchLevelFuel : Nat → Order → Int → List Order → Int → Nat → Nat → Option LevelRes
  | 0, _, _, _, _, _, _ => none
  | fuel + 1, inc, bp, os, tq, g, now =>
    if inc.is_filled then
      some { incoming := inc, orders := os, total_quantity := tq, trades := [], gen := g }
    else
      match os with
      | [] => some { incoming := inc, orders := [], total_quantity := tq, trades := [], gen := g }
      | maker :: rest =>
        let fq := min inc.remaining_quantity maker.remaining_quantity
        let trade := Trade.new inc.id maker.id bp fq inc.side g now
        let inc1 := inc.fill fq
        let maker1 := maker.fill fq
        if maker1.is_filled then
          match matchLevelFuel fuel inc1 bp rest (tq - fq - maker1.remaining_quantity) (g + 1) now with
          | none => none
          | some r =>
            some { incoming := r.incoming, orders := r.orders, total_quantity := r.total_quantity,
                   trades := trade :: r.trades, gen := r.gen }
        else
          match matchLevelFuel fuel inc1 bp (maker1 :: rest) (tq - fq) (g + 1) now with
          | none => none
          | some r =>
            some { incoming := r.incoming, orders := r.orders, total_quantity := r.total_quantity,
                   trades := trade :: r.trades, gen := r.gen }

/-- Fuel-indexed executable twin of matchLoop; outer `none` = out of fuel,
`some v` = the loop's result `v` (where `v = none` is the unwrap panic). -/
def matchLoopFuel : Nat → Order → BookSide → Nat → Nat → Option (Option LoopRes)
  | 0, _, _, _, _ => none
  | fuel + 1, inc, opp, g, now =>
    if inc.is_filled then
      some (some { incoming := inc, opposing := opp, trades := [], gen := g })
    else
      match bestOpposingPrice inc.side opp with
      | none => some (some { incoming := inc, opposing := opp, trades := [], gen := g })
      | some bp =>
        if pricesCross inc.side inc.price bp then
          match lookupLevel opp bp with
          | none => some none
          | some level =>
            match matchLevelFuel (level.orders.length * 2 + 2) inc bp level.orders
                level.total_quantity g now with
            | none => none
            | some r =>
              let opp1 :=
                if r.orders.isEmpty then removeLevel opp bp
                else setLevel opp bp { orders := r.orders, total_quantity := r.total_quantity }
              match matchLoopFuel fuel r.incoming opp1 r.gen now with
              | none => none
              | some none => some none
              | some (some r2) =>
                some (some { incoming := r2.incoming, opposing := r2.opposing,
                             trades := r.trades ++ r2.trades, gen := r2.gen })
        else some (some { incoming := inc, opposing := opp, trades := [], gen := g })

/-- Executable twin of OrderBook::match_order; `none` = out of fuel. -/
def match_orderExec (b : OrderBook) (inc : Order) (g now : Nat) :
    Option (Option (List Trade × OrderBook × Nat)) :=
  let opposing := match inc.side with
    | Side.Buy => b.asks
    | Side.Sell => b.bids
  match matchLoopFuel (opposing.length * 2 + 2) inc opposing g now with
  | none => none
  | some none => some none
  | some (some r) =>
    let b1 := match inc.side with
      | Side.Buy => { b with asks := r.opposing }
      | Side.Sell => { b with bids := r.opposing }
    let b2 := if r.incoming.is_filled then b1 else b1.add_order r.incoming
    some (some (r.trades, b2, r.gen))

/-- Helper Bool check for the non-crossed invariant, used to decide concrete
instances. -/
def nonCrossedB (b : OrderBook) : Bool :=
  match b.best_bid, b.best_ask with
  | some bb, some ba => decide (bb < ba)
  | _, _ => true

/- Concrete instances used by the scenario claim and the witnesses. -/

/-- A resting sell: Sell(100, 10), id 11. -/
def sellW : Order := Order.new Side.Sell 100 10 11 0

/-- A book holding just sellW on the ask side. -/
def bookW : OrderBook := (OrderBook.new "BTC/USD").add_order sellW

/-- An aggressive partial buy: Buy(105, 4), id 12. -/
def buyW : Order := Order.new Side.Buy 105 4 12 1

/-- An aggressive buy exceeding the book depth: Buy(105, 15), id 14. -/
def buyBig : Order := Order.new Side.Buy 105 15 14 2

/-- Scenario S4: the older of two equal-priced sells. -/
def sellA4 : Order := Order.new Side.Sell 100 5 1 0

/-- Scenario S4: the newer of two equal-priced sells. -/
def sellB4 : Order := Order.new Side.Sell 100 5 2 1

/-- Scenario S4 book: two sells at 100, arrival order sellA4 then sellB4. -/
def book4 : OrderBook := ((OrderBook.new "BTC/USD").add_order sellA4).add_order sellB4

/-- Scenario S4 taker: Buy(100, 5). -/
def buy4 : Order := Order.new Side.Buy 100 5 3 2

/-- Scenario S5 asks: Sell(100, 5). -/
def sellS5a : Order := Order.new Side.Sell 100 5 0 0

/-- Scenario S5 asks: Sell(101, 5). -/
def sellS5b : Order := Order.new Side.Sell 101 5 1 1

/-- Scenario S5 asks: Sell(102, 5). -/
def sellS5c : Order := Order.new Side.Sell 102 5 2 2

/-- Scenario S5 book: asks at 100, 101, 102 with 5 each. -/
def bookS5 : OrderBook :=
  (((OrderBook.new "BTC/USD").add_order sellS5a).add_order sellS5b).add_order sellS5c

/-- Scenario S5 taker: Buy(102, 12). -/
def buyS5 : Order := Order.new Side.Buy 102 12 3 3

/-- The single trade bookW + buyW produce (computed outcome). -/
def tradeW0 : Trade :=
  { id := 20, taker_order_id := 12, maker_order_id := 11, price := 100, quantity := 4,
    taker_side := Side.Buy, timestamp := 5 }

/-- Trade list of the bookW + buyW match. -/
def tradesW : List Trade := [tradeW0]

/-- The book left by the bookW + buyW match (computed outcome). -/
def bookWout : OrderBook :=
  { bids := [],
    asks := [(100, { orders := [{ id := 11, side := Side.Sell, price := 100, quantity := 10,
                                  remaining_quantity := 6, timestamp := 0,
                                  status := OrderStatus.PartiallyFilled }],
                     total_quantity := 6 })],
    symbol := "BTC/USD" }

/-- Trade list of the bookW + buyBig match (computed outcome). -/
def tradesBig : List Trade :=
  [{ id := 30, taker_order_id := 14, maker_order_id := 11, price := 100, quantity := 10,
     taker_side := Side.Buy, timestamp := 6 }]

/-- The book left by the bookW + buyBig match: the taker residual rests at
105 on the bid side (computed outcome). -/
def bookBigOut : OrderBook :=
  { bids := [(105, { orders := [{ id := 14, side := Side.Buy, price := 105, quantity := 15,
                                  remaining_quantity := 5, timestamp := 2,
                                  status := OrderStatus.PartiallyFilled }],
                     total_quantity := 5 })],
    asks := [],
    symbol := "BTC/USD" }

/-- The single trade of scenario S4 (computed outcome). -/
def trade40 : Trade :=
  { id := 40, taker_order_id := 3, maker_order_id := 1, price := 100, quantity := 5,
    taker_side := Side.Buy, timestamp := 7 }

/-- Trade list of the S4 match. -/
def trades4 : List Trade := [trade40]

/-- The book left by scenario S4 (computed outcome): only sellB4 remains. -/
def book4out : OrderBook :=
  { bids := [],
    asks := [(100, { orders := [{ id := 2, side := Side.Sell, price := 100, quantity := 5,
                                  remaining_quantity := 5, timestamp := 1,
                                  status := OrderStatus.Open }],
                     total_quantity := 5 })],
    symbol := "BTC/USD" }

/-- The ask level of book4 at price 100. -/
def lvl4 : PriceLevel := { orders := [sellA4, sellB4], total_quantity := 10 }

/-- An order used to exercise add_order: Buy(99, 3), id 13. -/
def addW : Order := Order.new Side.Buy 99 3 13 2

/-- The trades scenario S5 produces (computed outcome). -/
def tradesS5 : List Trade :=
  [{ id := 4, taker_order_id := 3, maker_order_id := 0, price := 100, quantity := 5,
     taker_side := Side.Buy, timestamp := 9 },
   { id := 5, taker_order_id := 3, maker_order_id := 1, price := 101, quantity := 5,
     taker_side := Side.Buy, timestamp := 9 },
   { id := 6, taker_order_id := 3, maker_order_id := 2, price := 102, quantity := 2,
     taker_side := Side.Buy, timestamp := 9 }]

/-- The book scenario S5 leaves behind (computed outcome). -/
def bookS5out : OrderBook :=
  { bids := [],
    asks := [(102, { orders := [{ id := 2, side := Side.Sell, price := 102, quantity := 5,
                                  remaining_quantity := 3, timestamp := 2,
                                  status := OrderStatus.PartiallyFilled }],
                     total_quantity := 3 })],
    symbol := "BTC/USD" }

/-- A resting sell for the submit-flow check: Sell(100, 10), id 50. -/
def sellC1 : Order := Order.new Side.Sell 100 10 50 0

/-- Book for the submit-flow check. -/
def bookC1 : OrderBook := (OrderBook.new "X").add_order sellC1

/- ================================================================
   Theorems.  First: basic facts about orders, sums and the map model.
   ================================================================ -/

@[simp] theorem Order.fill_id (o : Order) (q : Int) : (o.fill q).id = o.id := rfl

@[simp] theorem Order.fill_side (o : Order) (q : Int) : (o.fill q).side = o.side := rfl

@[simp] theorem Order.fill_price (o : Order) (q : Int) : (o.fill q).price = o.price := rfl

@[simp] theorem Order.fill_quantity (o : Order) (q : Int) : (o.fill q).quantity = o.quantity := rfl

@[simp] theorem Order.fill_timestamp (o : Order) (q : Int) : (o.fill q).timestamp = o.timestamp := rfl

@[simp] theorem Order.fill_remaining (o : Order) (q : Int) :
    (o.fill q).remaining_quantity = o.remaining_quantity - q := rfl

theorem Order.is_filled_iff (o : Order) : o.is_filled = true ↔ o.remaining_quantity = 0 := by
  simp [Order.is_filled]

@[simp] theorem sumQty_nil : sumQty [] = 0 := rfl

@[simp] theorem sumQty_cons (t : Trade) (ts : List Trade) :
    sumQty (t :: ts) = t.quantity + sumQty ts := by
  simp [sumQty]

@[simp] theorem sumQty_append (ts us : List Trade) :
    sumQty (ts ++ us) = sumQty ts + sumQty us := by
  simp [sumQty]

@[simp] theorem sumRem_nil : sumRem [] = 0 := rfl

@[simp] theorem sumRem_cons (o : Order) (os : List Order) :
    sumRem (o :: os) = o.remaining_quantity + sumRem os := by
  simp [sumRem]

@[simp] theorem sumRem_append (os ps : List Order) :
    sumRem (os ++ ps) = sumRem os + sumRem ps := by
  simp [sumRem]

/- ===== Unfolding equations for the inner loop ===== -/

theorem matchLevel_filled {inc : Order} (bp : Int) (os : List Order) (tq : Int) (g now : Nat)
    (h : inc.is_filled = true) :
    matchLevel inc bp os tq g now =
      { incoming := inc, orders := os, total_quantity := tq, trades := [], gen := g } := by
  rw [matchLevel.eq_def]
  simp [h]

theorem matchLevel_nil {inc : Order} (bp tq : Int) (g now : Nat)
    (h : ¬ inc.is_filled = true) :
    matchLevel inc bp [] tq g now =
      { incoming := inc, orders := [], total_quantity := tq, trades := [], gen := g } := by
  rw [matchLevel.eq_def]
  simp [h]

theorem matchLevel_cons_pop {inc maker : Order} {bp tq : Int} {rest : List Order} {g now : Nat}
    (hnf : ¬ inc.is_filled = true)
    (hmf : (maker.fill (min inc.remaining_quantity maker.remaining_quantity)).is_filled = true) :
    matchLevel inc bp (maker :: rest) tq g now =
      (let fq := min inc.remaining_quantity maker.remaining_quantity
       let r := matchLevel (inc.fill fq) bp rest
         (tq - fq - (maker.fill fq).remaining_quantity) (g + 1) now
       { incoming := r.incoming, orders := r.orders, total_quantity := r.total_quantity,
         trades := Trade.new inc.id maker.id bp fq inc.side g now :: r.trades, gen := r.gen }) := by
  rw [matchLevel.eq_def]
  simp [hnf, hmf]

theorem matchLevel_cons_keep {inc maker : Order} {bp tq : Int} {rest : List Order} {g now : Nat}
    (hnf : ¬ inc.is_filled = true)
    (hmf : ¬ (maker.fill (min inc.remaining_quantity maker.remaining_quantity)).is_filled = true) :
    matchLevel inc bp (maker :: rest) tq g now =
      (let fq := min inc.remaining_quantity maker.remaining_quantity
       let r := matchLevel (inc.fill fq) bp (maker.fill fq :: rest) (tq - fq) (g + 1) now
       { incoming := r.incoming, orders := r.orders, total_quantity := r.total_quantity,
         trades := Trade.new inc.id maker.id bp fq inc.side g now :: r.trades, gen := r.gen }) := by
  rw [matchLevel.eq_def]
  simp [hnf, hmf]

@[simp] theorem Trade.new_taker (a b : Nat) (p q : Int) (sd : Side) (g n : Nat) :
    (Trade.new a b p q sd g n).taker_order_id = a := rfl

@[simp] theorem Trade.new_maker (a b : Nat) (p q : Int) (sd : Side) (g n : Nat) :
    (Trade.new a b p q sd g n).maker_order_id = b := rfl

@[simp] theorem Trade.new_price (a b : Nat) (p q : Int) (sd : Side) (g n : Nat) :
    (Trade.new a b p q sd g n).price = p := rfl

@[simp] theorem Trade.new_quantity (a b : Nat) (p q : Int) (sd : Side) (g n : Nat) :
    (Trade.new a b p q sd g n).quantity = q := rfl

/- ===== Structural lemmas about the inner loop ===== -/

/-- The inner loop stops only when the level is exhausted or the incoming
order is filled. -/
theorem matchLevel_orders_or_filled (inc : Order) (bp : Int) (os : List Order) (tq : Int) (g now : Nat) :
    (matchLevel inc bp os tq g now).orders = [] ∨
    (matchLevel inc bp os tq g now).incoming.is_filled = true := by
  induction inc, bp, os, tq, g, now using matchLevel.induct with
  | case1 inc bp os tq g now h => exact Or.inr (by simp [matchLevel_filled _ _ _ _ _ h, h])
  | case2 inc bp tq g now h => exact Or.inl (by simp [matchLevel_nil _ _ _ _ h])
  | case3 inc bp tq g now hnf maker rest fq i1 m1 t1 hmf ih =>
    unfold_let i1 m1 t1 fq at hmf ih
    rw [matchLevel_cons_pop hnf hmf]
    simpa using ih
  | case4 inc bp tq g now hnf maker rest fq i1 m1 t1 hmf ih =>
    unfold_let i1 m1 t1 fq at hmf ih
    rw [matchLevel_cons_keep hnf hmf]
    simpa using ih

/-- Quantity conservation across one level: what the incoming order loses is
exactly the total executed quantity of the emitted trades. -/
theorem matchLevel_conservation (inc : Order) (bp : Int) (os : List Order) (tq : Int) (g now : Nat) :
    inc.remaining_quantity =
      sumQty (matchLevel inc bp os tq g now).trades +
      (matchLevel inc bp os tq g now).incoming.remaining_quantity := by
  induction inc, bp, os, tq, g, now using matchLevel.induct with
  | case1 inc bp os tq g now h => simp [matchLevel_filled _ _ _ _ _ h]
  | case2 inc bp tq g now h => simp [matchLevel_nil _ _ _ _ h]
  | case3 inc bp tq g now hnf maker rest fq i1 m1 t1 hmf ih =>
    unfold_let i1 m1 t1 fq at hmf ih
    rw [matchLevel_cons_pop hnf hmf]
    simp at ih ⊢
    omega
  | case4 inc bp tq g now hnf maker rest fq i1 m1 t1 hmf ih =>
    unfold_let i1 m1 t1 fq at hmf ih
    rw [matchLevel_cons_keep hnf hmf]
    simp at ih ⊢
    omega

/-- The inner loop changes only the remaining quantity and status of the
incoming order. -/
theorem matchLevel_incoming_fields (inc : Order) (bp : Int) (os : List Order) (tq : Int) (g now : Nat) :
    (matchLevel inc bp os tq g now).incoming.id = inc.id ∧
    (matchLevel inc bp os tq g now).incoming.side = inc.side ∧
    (matchLevel inc bp os tq g now).incoming.price = inc.price ∧
    (matchLevel inc bp os tq g now).incoming.quantity = inc.quantity ∧
    (matchLevel inc bp os tq g now).incoming.timestamp = inc.timestamp := by
  induction inc, bp, os, tq, g, now using matchLevel.induct with
  | case1 inc bp os tq g now h => simp [matchLevel_filled _ _ _ _ _ h]
  | case2 inc bp tq g now h => simp [matchLevel_nil _ _ _ _ h]
  | case3 inc bp tq g now hnf maker rest fq i1 m1 t1 hmf ih =>
    unfold_let i1 m1 t1 fq at hmf ih
    rw [matchLevel_cons_pop hnf hmf]
    simpa using ih
  | case4 inc bp tq g now hnf maker rest fq i1 m1 t1 hmf ih =>
    unfold_let i1 m1 t1 fq at hmf ih
    rw [matchLevel_cons_keep hnf hmf]
    simpa using ih

/-- Every trade emitted against one level carries that level's price. -/
theorem matchLevel_trades_price (inc : Order) (bp : Int) (os : List Order) (tq : Int) (g now : Nat) :
    ∀ t ∈ (matchLevel inc bp os tq g now).trades, t.price = bp := by
  induction inc, bp, os, tq, g, now using matchLevel.induct with
  | case1 inc bp os tq g now h => simp [matchLevel_filled _ _ _ _ _ h]
  | case2 inc bp tq g now h => simp [matchLevel_nil _ _ _ _ h]
  | case3 inc bp tq g now hnf maker rest fq i1 m1 t1 hmf ih =>
    unfold_let i1 m1 t1 fq at hmf ih
    rw [matchLevel_cons_pop hnf hmf]
    intro t ht
    simp at ht
    simp at ih
    rcases ht with rfl | ht
    · rfl
    · exact ih t ht
  | case4 inc bp tq g now hnf maker rest fq i1 m1 t1 hmf ih =>
    unfold_let i1 m1 t1 fq at hmf ih
    rw [matchLevel_cons_keep hnf hmf]
    intro t ht
    simp at ht
    rcases ht with rfl | ht
    · rfl
    · exact ih t ht

/-- Every trade emitted against one level names the incoming order as taker. -/
theorem matchLevel_trades_taker (inc : Order) (bp : Int) (os : List Order) (tq : Int) (g now : Nat) :
    ∀ t ∈ (matchLevel inc bp os tq g now).trades, t.taker_order_id = inc.id := by
  induction inc, bp, os, tq, g, now using matchLevel.induct with
  | case1 inc bp os tq g now h => simp [matchLevel_filled _ _ _ _ _ h]
  | case2 inc bp tq g now h => simp [matchLevel_nil _ _ _ _ h]
  | case3 inc bp tq g now hnf maker rest fq i1 m1 t1 hmf ih =>
    unfold_let i1 m1 t1 fq at hmf ih
    rw [matchLevel_cons_pop hnf hmf]
    intro t ht
    simp at ht
    simp at ih
    rcases ht with rfl | ht
    · rfl
    · simpa using ih t ht
  | case4 inc bp tq g now hnf maker rest fq i1 m1 t1 hmf ih =>
    unfold_let i1 m1 t1 fq at hmf ih
    rw [matchLevel_cons_keep hnf hmf]
    intro t ht
    simp at ht
    rcases ht with rfl | ht
    · rfl
    · simpa using ih t ht

/-- The first trade emitted against a level (if any) names the front (oldest)
order of the level's FIFO queue as maker. -/
theorem matchLevel_head_maker (inc : Order) (bp : Int) (os : List Order) (tq : Int) (g now : Nat) :
    ∀ t, (matchLevel inc bp os tq g now).trades.head? = some t →
      ∃ o, os.head? = some o ∧ t.maker_order_id = o.id := by
  induction inc, bp, os, tq, g, now using matchLevel.induct with
  | case1 inc bp os tq g now h => simp [matchLevel_filled _ _ _ _ _ h]
  | case2 inc bp tq g now h => simp [matchLevel_nil _ _ _ _ h]
  | case3 inc bp tq g now hnf maker rest fq i1 m1 t1 hmf ih =>
    rw [matchLevel_cons_pop hnf hmf]
    intro t ht
    simp at ht
    subst ht
    exact ⟨maker, rfl, rfl⟩
  | case4 inc bp tq g now hnf maker rest fq i1 m1 t1 hmf ih =>
    rw [matchLevel_cons_keep hnf hmf]
    intro t ht
    simp at ht
    subst ht
    exact ⟨maker, rfl, rfl⟩

/-- Every trade emitted against a level is matched against an order stored in
that level. -/
theorem matchLevel_trades_maker_mem (inc : Order) (bp : Int) (os : List Order) (tq : Int) (g now : Nat) :
    ∀ t ∈ (matchLevel inc bp os tq g now).trades, ∃ o ∈ os, o.id = t.maker_order_id := by
  induction inc, bp, os, tq, g, now using matchLevel.induct with
  | case1 inc bp os tq g now h => simp [matchLevel_filled _ _ _ _ _ h]
  | case2 inc bp tq g now h => simp [matchLevel_nil _ _ _ _ h]
  | case3 inc bp tq g now hnf maker rest fq i1 m1 t1 hmf ih =>
    unfold_let i1 m1 t1 fq at hmf ih
    rw [matchLevel_cons_pop hnf hmf]
    intro t ht
    simp at ht
    simp at ih
    rcases ht with rfl | ht
    · exact ⟨maker, List.mem_cons_self _ _, by simp⟩
    · obtain ⟨o, ho, hid⟩ := ih t ht
      exact ⟨o, List.mem_cons_of_mem _ ho, hid⟩
  | case4 inc bp tq g now hnf maker rest fq i1 m1 t1 hmf ih =>
    unfold_let i1 m1 t1 fq at hmf ih
    rw [matchLevel_cons_keep hnf hmf]
    intro t ht
    simp at ht
    rcases ht with rfl | ht
    · exact ⟨maker, List.mem_cons_self _ _, by simp⟩
    · obtain ⟨o, ho, hid⟩ := ih t ht
      rcases List.mem_cons.mp ho with rfl | ho
      · exact ⟨maker, List.mem_cons_self _ _, by simpa using hid⟩
      · exact ⟨o, List.mem_cons_of_mem _ ho, hid⟩

/-- Orders surviving the inner loop keep ids and prices of orders that were
already stored in the level. -/
theorem matchLevel_orders_idprice (inc : Order) (bp : Int) (os : List Order) (tq : Int) (g now : Nat) :
    ∀ x ∈ (matchLevel inc bp os tq g now).orders,
      ∃ o ∈ os, x.id = o.id ∧ x.price = o.price := by
  induction inc, bp, os, tq, g, now using matchLevel.induct with
  | case1 inc bp os tq g now h =>
    rw [matchLevel_filled _ _ _ _ _ h]
    intro x hx
    exact ⟨x, hx, rfl, rfl⟩
  | case2 inc bp tq g now h => simp [matchLevel_nil _ _ _ _ h]
  | case3 inc bp tq g now hnf maker rest fq i1 m1 t1 hmf ih =>
    unfold_let i1 m1 t1 fq at hmf ih
    rw [matchLevel_cons_pop hnf hmf]
    intro x hx
    simp only [] at hx
    simp at ih
    obtain ⟨o, ho, hx1, hx2⟩ := ih x (by simpa using hx)
    exact ⟨o, List.mem_cons_of_mem _ ho, hx1, hx2⟩
  | case4 inc bp tq g now hnf maker rest fq i1 m1 t1 hmf ih =>
    unfold_let i1 m1 t1 fq at hmf ih
    rw [matchLevel_cons_keep hnf hmf]
    intro x hx
    obtain ⟨o, ho, hx1, hx2⟩ := ih x (by simpa using hx)
    rcases List.mem_cons.mp ho with rfl | ho
    · exact ⟨maker, List.mem_cons_self _ _, by simpa using hx1, by simpa using hx2⟩
    · exact ⟨o, List.mem_cons_of_mem _ ho, hx1, hx2⟩

/-- Positivity: if all stored orders of the level are strictly positive and
the incoming order is non-negative, this persists through the inner loop. -/
theorem matchLevel_pos (inc : Order) (bp : Int) (os : List Order) (tq : Int) (g now : Nat) :
    (∀ o ∈ os, 0 < o.remaining_quantity) → 0 ≤ inc.remaining_quantity →
      (∀ x ∈ (matchLevel inc bp os tq g now).orders, 0 < x.remaining_quantity) ∧
      0 ≤ (matchLevel inc bp os tq g now).incoming.remaining_quantity := by
  induction inc, bp, os, tq, g, now using matchLevel.induct with
  | case1 inc bp os tq g now h =>
    intro hos hinc
    rw [matchLevel_filled _ _ _ _ _ h]
    exact ⟨hos, hinc⟩
  | case2 inc bp tq g now h =>
    intro hos hinc
    rw [matchLevel_nil _ _ _ _ h]
    exact ⟨hos, hinc⟩
  | case3 inc bp tq g now hnf maker rest fq i1 m1 t1 hmf ih =>
    unfold_let i1 m1 t1 fq at hmf ih
    intro hos hinc
    rw [matchLevel_cons_pop hnf hmf]
    have hmk := hos maker (List.mem_cons_self _ _)
    have h1 : ∀ o ∈ rest, 0 < o.remaining_quantity :=
      fun o ho => hos o (List.mem_cons_of_mem _ ho)
    have h2 : 0 ≤ (inc.fill (min inc.remaining_quantity maker.remaining_quantity)).remaining_quantity := by
      simp only [Order.fill_remaining]
      omega
    simpa using ih h1 h2
  | case4 inc bp tq g now hnf maker rest fq i1 m1 t1 hmf ih =>
    unfold_let i1 m1 t1 fq at hmf ih
    intro hos hinc
    rw [matchLevel_cons_keep hnf hmf]
    have hmk := hos maker (List.mem_cons_self _ _)
    have hm1 : 0 < (maker.fill (min inc.remaining_quantity maker.remaining_quantity)).remaining_quantity := by
      simp only [Order.is_filled, Order.fill_remaining, beq_iff_eq] at hmf
      simp
      omega
    have h1 : ∀ o ∈ maker.fill (min inc.remaining_quantity maker.remaining_quantity) :: rest,
        0 < o.remaining_quantity := by
      intro o ho
      rcases List.mem_cons.mp ho with rfl | ho
      · exact hm1
      · exact hos o (List.mem_cons_of_mem _ ho)
    have h2 : 0 ≤ (inc.fill (min inc.remaining_quantity maker.remaining_quantity)).remaining_quantity := by
      simp only [Order.fill_remaining]
      omega
    simpa using ih h1 h2

/-- The cached level total stays equal to the sum of remaining quantities of
the level's queue through the inner loop. -/
theorem matchLevel_totals (inc : Order) (bp : Int) (os : List Order) (tq : Int) (g now : Nat) :
    tq = sumRem os →
      (matchLevel inc bp os tq g now).total_quantity = sumRem (matchLevel inc bp os tq g now).orders := by
  induction inc, bp, os, tq, g, now using matchLevel.induct with
  | case1 inc bp os tq g now h =>
    intro ht
    rw [matchLevel_filled _ _ _ _ _ h]
    exact ht
  | case2 inc bp tq g now h =>
    intro ht
    rw [matchLevel_nil _ _ _ _ h]
    exact ht
  | case3 inc bp tq g now hnf maker rest fq i1 m1 t1 hmf ih =>
    unfold_let i1 m1 t1 fq at hmf ih
    intro ht
    rw [matchLevel_cons_pop hnf hmf]
    simp only [sumRem_cons] at ht
    have : tq - min inc.remaining_quantity maker.remaining_quantity -
        (maker.fill (min inc.remaining_quantity maker.remaining_quantity)).remaining_quantity
        = sumRem rest := by
      simp
      omega
    simpa using ih this
  | case4 inc bp tq g now hnf maker rest fq i1 m1 t1 hmf ih =>
    unfold_let i1 m1 t1 fq at hmf ih
    intro ht
    rw [matchLevel_cons_keep hnf hmf]
    simp only [sumRem_cons] at ht
    have : tq - min inc.remaining_quantity maker.remaining_quantity =
        sumRem (maker.fill (min inc.remaining_quantity maker.remaining_quantity) :: rest) := by
      simp
      omega
    simpa using ih this

/- ===== Lemmas about the sorted association-list map model ===== -/

theorem lookupLevel_mem {bs : BookSide} {p : Int} {lv : PriceLevel}
    (h : lookupLevel bs p = some lv) : (p, lv) ∈ bs := by
  induction bs with
  | nil => simp [lookupLevel] at h
  | cons e rest ih =>
    obtain ⟨q, l⟩ := e
    by_cases hq : q = p
    · subst hq
      simp [lookupLevel] at h
      subst h
      exact List.mem_cons_self _ _
    · simp [lookupLevel, hq] at h
      exact List.mem_cons_of_mem _ (ih h)

theorem lookupLevel_isSome_of_mem_keys {bs : BookSide} {p : Int}
    (h : p ∈ keys bs) : (lookupLevel bs p).isSome = true := by
  induction bs with
  | nil => simp [keys] at h
  | cons e rest ih =>
    obtain ⟨q, l⟩ := e
    by_cases hq : q = p
    · simp [lookupLevel, hq]
    · simp [keys] at h
      rcases h with h | h
      · exact absurd h.symm hq
      · simpa [lookupLevel, hq] using ih (by simpa [keys] using h)

theorem bestOpposingPrice_mem {s : Side} {bs : BookSide} {p : Int}
    (h : bestOpposingPrice s bs = some p) : p ∈ keys bs := by
  cases s with
  | Buy =>
    simp [bestOpposingPrice, minKey] at h
    exact List.mem_of_mem_head? (by simp [h])
  | Sell =>
    simp [bestOpposingPrice, maxKey] at h
    exact List.mem_of_getLast?_eq_some h

theorem keys_setLevel (bs : BookSide) (p : Int) (lv : PriceLevel) :
    keys (setLevel bs p lv) = keys bs := by
  induction bs with
  | nil => rfl
  | cons e rest ih =>
    obtain ⟨q, l⟩ := e
    by_cases hq : q = p
    · subst hq
      simp [setLevel, keys]
    · simp [setLevel, keys, hq]
      simpa [keys] using ih

theorem removeLevel_sublist (bs : BookSide) (p : Int) :
    List.Sublist (removeLevel bs p) bs := by
  induction bs with
  | nil => simp [removeLevel]
  | cons e rest ih =>
    obtain ⟨q, l⟩ := e
    by_cases hq : q = p
    · simpa [removeLevel, hq] using List.sublist_cons_self _ _
    · simpa [removeLevel, hq] using List.Sublist.cons₂ (q, l) ih

theorem removeLevel_length {bs : BookSide} {p : Int} {lv : PriceLevel}
    (h : lookupLevel bs p = some lv) : (removeLevel bs p).length + 1 = bs.length := by
  induction bs with
  | nil => simp [lookupLevel] at h
  | cons e rest ih =>
    obtain ⟨q, l⟩ := e
    by_cases hq : q = p
    · simp [removeLevel, hq]
    · simp only [lookupLevel, hq, if_false] at h
      simp only [removeLevel, hq, if_false, List.length_cons]
      have := ih h
      omega

theorem mem_setLevel {bs : BookSide} {p : Int} {lv : PriceLevel} {e : Int × PriceLevel}
    (h : e ∈ setLevel bs p lv) : e = (p, lv) ∨ e ∈ bs := by
  induction bs with
  | nil => simp [setLevel] at h
  | cons e0 rest ih =>
    obtain ⟨q, l⟩ := e0
    by_cases hq : q = p
    · subst hq
      simp [setLevel] at h
      rcases h with rfl | h
      · exact Or.inl rfl
      · exact Or.inr (List.mem_cons_of_mem _ h)
    · simp [setLevel, hq] at h
      rcases h with rfl | h
      · exact Or.inr (List.mem_cons_self _ _)
      · rcases ih h with h1 | h1
        · exact Or.inl h1
        · exact Or.inr (List.mem_cons_of_mem _ h1)

theorem mem_removeLevel {bs : BookSide} {p : Int} {e : Int × PriceLevel}
    (h : e ∈ removeLevel bs p) : e ∈ bs :=
  (removeLevel_sublist bs p).mem h

theorem lookupLevel_setLevel_ne {bs : BookSide} {p q : Int} (lv : PriceLevel)
    (h : q ≠ p) : lookupLevel (setLevel bs p lv) q = lookupLevel bs q := by
  induction bs with
  | nil => rfl
  | cons e rest ih =>
    obtain ⟨k, l⟩ := e
    by_cases hk : k = p
    · subst hk
      simp [setLevel, lookupLevel, Ne.symm h]
    · simp [setLevel, lookupLevel, hk]
      by_cases hkq : k = q
      · simp [hkq]
      · simp [hkq, ih]

theorem lookupLevel_removeLevel_ne {bs : BookSide} {p q : Int}
    (h : q ≠ p) : lookupLevel (removeLevel bs p) q = lookupLevel bs q := by
  induction bs with
  | nil => rfl
  | cons e rest ih =>
    obtain ⟨k, l⟩ := e
    by_cases hk : k = p
    · subst hk
      simp [removeLevel, lookupLevel, Ne.symm h]
    · simp [removeLevel, lookupLevel, hk]
      by_cases hkq : k = q
      · simp [hkq]
      · simp [hkq, ih]

theorem sortedKeys_setLevel {bs : BookSide} {p : Int} {lv : PriceLevel}
    (h : sortedKeys bs) : sortedKeys (setLevel bs p lv) := by
  unfold sortedKeys
  rw [keys_setLevel]
  exact h

theorem sortedKeys_removeLevel {bs : BookSide} {p : Int}
    (h : sortedKeys bs) : sortedKeys (removeLevel bs p) := by
  unfold sortedKeys at h ⊢
  exact List.Pairwise.sublist ((removeLevel_sublist bs p).map Prod.fst) h

theorem not_mem_keys_removeLevel {bs : BookSide} {p : Int}
    (h : sortedKeys bs) : p ∉ keys (removeLevel bs p) := by
  induction bs with
  | nil => simp [removeLevel, keys]
  | cons e rest ih =>
    obtain ⟨q, l⟩ := e
    unfold sortedKeys keys at h
    simp only [List.map_cons, List.pairwise_cons] at h
    by_cases hq : q = p
    · subst hq
      simp only [removeLevel, if_pos rfl]
      intro hmem
      have := h.1 q (by simpa [keys] using hmem)
      omega
    · simp only [removeLevel, if_neg hq, keys, List.map_cons]
      intro hmem
      rcases List.mem_cons.mp hmem with h1 | h1
      · exact hq h1.symm
      · exact ih h.2 (by simpa [keys] using h1)

theorem sorted_head_le {l : List Int} {h0 x : Int}
    (hs : List.Pairwise (fun p q => p < q) l) (hh : l.head? = some h0) (hx : x ∈ l) :
    h0 ≤ x := by
  cases l with
  | nil => simp at hh
  | cons a rest =>
    simp at hh
    subst hh
    rcases List.mem_cons.mp hx with rfl | hx
    · omega
    · have := (List.pairwise_cons.mp hs).1 x hx
      omega

theorem sorted_le_getLast {l : List Int} {m x : Int}
    (hs : List.Pairwise (fun p q => p < q) l) (hm : l.getLast? = some m) (hx : x ∈ l) :
    x ≤ m := by
  obtain ⟨ys, rfl⟩ := List.getLast?_eq_some_iff.mp hm
  rcases List.mem_append.mp hx with h1 | h1
  · have := List.pairwise_append.mp hs
    have := this.2.2 x h1 m (List.mem_singleton_self m)
    omega
  · simp at h1
    omega

theorem mem_keys_insertOrder {bs : BookSide} {p : Int} {o : Order} {k : Int}
    (h : k ∈ keys (insertOrder bs p o)) : k = p ∨ k ∈ keys bs := by
  induction bs with
  | nil => simp [insertOrder, keys] at h; exact Or.inl h
  | cons e rest ih =>
    obtain ⟨q, l⟩ := e
    by_cases h1 : p < q
    · simp [insertOrder, h1, keys] at h
      rcases h with h | h | h
      · exact Or.inl h
      · exact Or.inr (by simp [keys, h])
      · exact Or.inr (by simp [keys]; exact Or.inr h)
    · by_cases h2 : p = q
      · simp [insertOrder, h1, h2, keys] at h
        rcases h with h | h
        · exact Or.inl (h.trans h2.symm)
        · exact Or.inr (by simp [keys]; exact Or.inr h)
      · simp [insertOrder, h1, h2, keys] at h
        rcases h with h | h
        · exact Or.inr (by simp [keys, h])
        · rcases ih (by simpa [keys] using h) with h3 | h3
          · exact Or.inl h3
          · exact Or.inr (by simp [keys]; right; simpa [keys] using h3)

theorem mem_ordersOf {bs : BookSide} {x : Order} :
    x ∈ ordersOf bs ↔ ∃ e ∈ bs, x ∈ e.2.orders := by
  unfold ordersOf
  rw [List.mem_flatten]
  constructor
  · rintro ⟨os, hos, hx⟩
    obtain ⟨e, he, rfl⟩ := List.mem_map.mp hos
    exact ⟨e, he, hx⟩
  · rintro ⟨e, he, hx⟩
    exact ⟨e.2.orders, List.mem_map.mpr ⟨e, he, rfl⟩, hx⟩

theorem mem_ordersOf_setLevel {bs : BookSide} {p : Int} {lv : PriceLevel} {x : Order}
    (h : x ∈ ordersOf (setLevel bs p lv)) : x ∈ lv.orders ∨ x ∈ ordersOf bs := by
  obtain ⟨e, he, hx⟩ := mem_ordersOf.mp h
  rcases mem_setLevel he with rfl | he
  · exact Or.inl hx
  · exact Or.inr (mem_ordersOf.mpr ⟨e, he, hx⟩)

theorem mem_ordersOf_removeLevel {bs : BookSide} {p : Int} {x : Order}
    (h : x ∈ ordersOf (removeLevel bs p)) : x ∈ ordersOf bs := by
  obtain ⟨e, he, hx⟩ := mem_ordersOf.mp h
  exact mem_ordersOf.mpr ⟨e, mem_removeLevel he, hx⟩

theorem ordersOf_insertOrder_perm (bs : BookSide) (p : Int) (o : Order) :
    List.Perm (ordersOf (insertOrder bs p o)) (o :: ordersOf bs) := by
  induction bs with
  | nil => simp [insertOrder, ordersOf, PriceLevel.add_order, PriceLevel.new]
  | cons e rest ih =>
    obtain ⟨q, l⟩ := e
    by_cases h1 : p < q
    · simp [insertOrder, h1, ordersOf, PriceLevel.add_order, PriceLevel.new]
    · by_cases h2 : p = q
      · simp only [insertOrder, if_neg h1, if_pos h2, ordersOf, List.map_cons, List.flatten_cons,
          PriceLevel.add_order]
        have hassoc : (l.orders ++ [o]) ++ (List.map (fun e => e.2.orders) rest).flatten =
            l.orders ++ (o :: (List.map (fun e => e.2.orders) rest).flatten) := by
          simp
        rw [hassoc]
        exact List.perm_middle
      · simp only [insertOrder, if_neg h1, if_neg h2, ordersOf, List.map_cons, List.flatten_cons]
        refine List.Perm.trans (List.Perm.append_left _ ih) ?_
        exact List.perm_middle

theorem levelsOk_setLevel {bs : BookSide} {p : Int} {lv : PriceLevel}
    (h : levelsOk bs) (hlv : lv.total_quantity = sumRem lv.orders) :
    levelsOk (setLevel bs p lv) := by
  intro e he
  rcases mem_setLevel he with rfl | he
  · exact hlv
  · exact h e he

theorem levelsOk_removeLevel {bs : BookSide} {p : Int}
    (h : levelsOk bs) : levelsOk (removeLevel bs p) :=
  fun e he => h e (mem_removeLevel he)

theorem levelsOk_insertOrder {bs : BookSide} {p : Int} {o : Order}
    (h : levelsOk bs) : levelsOk (insertOrder bs p o) := by
  induction bs with
  | nil =>
    intro e he
    simp [insertOrder] at he
    subst he
    simp [PriceLevel.add_order, PriceLevel.new, sumRem]
  | cons e0 rest ih =>
    obtain ⟨q, l⟩ := e0
    have hq : l.total_quantity = sumRem l.orders := h (q, l) (List.mem_cons_self _ _)
    have hrest : levelsOk rest := fun e he => h e (List.mem_cons_of_mem _ he)
    intro e he
    by_cases h1 : p < q
    · simp only [insertOrder, if_pos h1] at he
      rcases List.mem_cons.mp he with rfl | he
      · simp [PriceLevel.add_order, PriceLevel.new, sumRem]
      · exact h e he
    · by_cases h2 : p = q
      · simp only [insertOrder, if_neg h1, if_pos h2] at he
        rcases List.mem_cons.mp he with rfl | he
        · simp [PriceLevel.add_order, hq]
        · exact hrest e he
      · simp only [insertOrder, if_neg h1, if_neg h2] at he
        rcases List.mem_cons.mp he with rfl | he
        · exact hq
        · exact ih hrest e he

theorem priceConsistentSide_setLevel {bs : BookSide} {p : Int} {lv : PriceLevel}
    (h : priceConsistentSide bs) (hlv : ∀ o ∈ lv.orders, o.price = p) :
    priceConsistentSide (setLevel bs p lv) := by
  intro e he
  rcases mem_setLevel he with rfl | he
  · exact hlv
  · exact h e he

theorem priceConsistentSide_removeLevel {bs : BookSide} {p : Int}
    (h : priceConsistentSide bs) : priceConsistentSide (removeLevel bs p) :=
  fun e he => h e (mem_removeLevel he)

theorem ordersPosSide_setLevel {bs : BookSide} {p : Int} {lv : PriceLevel}
    (h : ordersPosSide bs) (hlv : ∀ o ∈ lv.orders, 0 < o.remaining_quantity) :
    ordersPosSide (setLevel bs p lv) := by
  intro x hx
  rcases mem_ordersOf_setLevel hx with hx | hx
  · exact hlv x hx
  · exact h x hx

theorem ordersPosSide_removeLevel {bs : BookSide} {p : Int}
    (h : ordersPosSide bs) : ordersPosSide (removeLevel bs p) :=
  fun x hx => h x (mem_ordersOf_removeLevel hx)

/- ===== Unfolding equations for the outer loop ===== -/

theorem matchLoop_filled {inc : Order} {opp : BookSide} {g now : Nat}
    (h : inc.is_filled = true) :
    matchLoop inc opp g now = some { incoming := inc, opposing := opp, trades := [], gen := g } := by
  rw [matchLoop.eq_def]
  simp [h]

theorem matchLoop_nobest {inc : Order} {opp : BookSide} {g now : Nat}
    (h : ¬ inc.is_filled = true) (hb : bestOpposingPrice inc.side opp = none) :
    matchLoop inc opp g now = some { incoming := inc, opposing := opp, trades := [], gen := g } := by
  rw [matchLoop.eq_def]
  simp [h, hb]

theorem matchLoop_nocross {inc : Order} {opp : BookSide} {g now : Nat} {bp : Int}
    (h : ¬ inc.is_filled = true) (hb : bestOpposingPrice inc.side opp = some bp)
    (hc : ¬ pricesCross inc.side inc.price bp = true) :
    matchLoop inc opp g now = some { incoming := inc, opposing := opp, trades := [], gen := g } := by
  rw [matchLoop.eq_def]
  simp [h, hb, hc]

theorem matchLoop_step {inc : Order} {opp : BookSide} {g now : Nat} {bp : Int} {level : PriceLevel}
    (h : ¬ inc.is_filled = true) (hb : bestOpposingPrice inc.side opp = some bp)
    (hc : pricesCross inc.side inc.price bp = true)
    (hl : lookupLevel opp bp = some level) :
    matchLoop inc opp g now =
      (let r := matchLevel inc bp level.orders level.total_quantity g now
       let opp1 :=
         if r.orders.isEmpty then removeLevel opp bp
         else setLevel opp bp { orders := r.orders, total_quantity := r.total_quantity }
       match matchLoop r.incoming opp1 r.gen now with
       | none => none
       | some r2 =>
         some { incoming := r2.incoming, opposing := r2.opposing,
                trades := r.trades ++ r2.trades, gen := r2.gen }) := by
  rw [matchLoop.eq_def]
  simp only [h, hb, hc]
  simp only [Bool.false_eq_true, if_false, dite_eq_ite, if_true]
  split
  next heq =>
    rw [heq] at hl
    cases hl
  next lv heq =>
    rw [heq] at hl
    obtain rfl : lv = level := Option.some.inj hl
    simp

/- ===== The outer loop never hits the unwrap panic ===== -/

/-- The lookup after a found best price always succeeds, and the loop always
returns a result. -/
theorem matchLoop_isSome (inc : Order) (opp : BookSide) (g now : Nat) :
    (matchLoop inc opp g now).isSome = true := by
  induction inc, opp, g, now using matchLoop.induct with
  | case1 inc opp g now h => simp [matchLoop_filled h]
  | case2 inc opp g now h hb => simp [matchLoop_nobest h hb]
  | case3 inc opp g now h bp hb hc hl =>
    have := lookupLevel_isSome_of_mem_keys (bestOpposingPrice_mem hb)
    rw [hl] at this
    simp at this
  | case4 inc opp g now h bp hb hc level hl r opp1 hx ih =>
    rw [hx] at ih
    simp at ih
  | case5 inc opp g now h bp hb hc level hl r opp1 r2 hx ih =>
    unfold_let r opp1 at hx
    simp only [dite_eq_ite, List.isEmpty_iff] at hx
    rw [matchLoop_step h hb hc hl]
    simp only [List.isEmpty_iff]
    simp only [hx]
    simp
  | case6 inc opp g now h bp hb hc => simp [matchLoop_nocross h hb hc]

theorem keys_removeLevel_subset {bs : BookSide} {p : Int} :
    ∀ k ∈ keys (removeLevel bs p), k ∈ keys bs := by
  intro k hk
  unfold keys at hk ⊢
  exact ((removeLevel_sublist bs p).map Prod.fst).subset hk

/-- Quantity conservation across the whole match loop. -/
theorem matchLoop_conservation (inc : Order) (opp : BookSide) (g now : Nat) :
    ∀ res, matchLoop inc opp g now = some res →
      inc.remaining_quantity = sumQty res.trades + res.incoming.remaining_quantity := by
  induction inc, opp, g, now using matchLoop.induct with
  | case1 inc opp g now h =>
    intro res hres
    rw [matchLoop_filled h] at hres
    obtain rfl := Option.some.inj hres
    simp
  | case2 inc opp g now h hb =>
    intro res hres
    rw [matchLoop_nobest h hb] at hres
    obtain rfl := Option.some.inj hres
    simp
  | case3 inc opp g now h bp hb hc hl =>
    intro res hres
    have := lookupLevel_isSome_of_mem_keys (bestOpposingPrice_mem hb)
    rw [hl] at this
    simp at this
  | case4 inc opp g now h bp hb hc level hl r opp1 hx ih =>
    intro res hres
    have := matchLoop_isSome r.incoming opp1 r.gen now
    rw [hx] at this
    simp at this
  | case5 inc opp g now h bp hb hc level hl r opp1 r2 hx ih =>
    intro res hres
    have key := ih r2 hx
    have hlev := matchLevel_conservation inc bp level.orders level.total_quantity g now
    unfold_let r opp1 at hx key
    simp only [dite_eq_ite, List.isEmpty_iff] at hx
    rw [matchLoop_step h hb hc hl] at hres
    simp only [List.isEmpty_iff] at hres
    simp only [hx] at hres
    obtain rfl := Option.some.inj hres
    simp only [sumQty_append]
    omega
  | case6 inc opp g now h bp hb hc =>
    intro res hres
    rw [matchLoop_nocross h hb hc] at hres
    obtain rfl := Option.some.inj hres
    simp

/-- The loop changes only remaining quantity and status of the incoming
order. -/
theorem matchLoop_incoming_fields (inc : Order) (opp : BookSide) (g now : Nat) :
    ∀ res, matchLoop inc opp g now = some res →
      res.incoming.id = inc.id ∧ res.incoming.side = inc.side ∧
      res.incoming.price = inc.price ∧ res.incoming.quantity = inc.quantity ∧
      res.incoming.timestamp = inc.timestamp := by
  induction inc, opp, g, now using matchLoop.induct with
  | case1 inc opp g now h =>
    intro res hres
    rw [matchLoop_filled h] at hres
    obtain rfl := Option.some.inj hres
    simp
  | case2 inc opp g now h hb =>
    intro res hres
    rw [matchLoop_nobest h hb] at hres
    obtain rfl := Option.some.inj hres
    simp
  | case3 inc opp g now h bp hb hc hl =>
    intro res hres
    have := lookupLevel_isSome_of_mem_keys (bestOpposingPrice_mem hb)
    rw [hl] at this
    simp at this
  | case4 inc opp g now h bp hb hc level hl r opp1 hx ih =>
    intro res hres
    have := matchLoop_isSome r.incoming opp1 r.gen now
    rw [hx] at this
    simp at this
  | case5 inc opp g now h bp hb hc level hl r opp1 r2 hx ih =>
    intro res hres
    have key := ih r2 hx
    have hfld := matchLevel_incoming_fields inc bp level.orders level.total_quantity g now
    unfold_let r opp1 at hx key
    simp only [dite_eq_ite, List.isEmpty_iff] at hx
    rw [matchLoop_step h hb hc hl] at hres
    simp only [List.isEmpty_iff] at hres
    simp only [hx] at hres
    obtain rfl := Option.some.inj hres
    obtain ⟨k1, k2, k3, k4, k5⟩ := key
    obtain ⟨f1, f2, f3, f4, f5⟩ := hfld
    exact ⟨k1.trans f1, k2.trans f2, k3.trans f3, k4.trans f4, k5.trans f5⟩
  | case6 inc opp g now h bp hb hc =>
    intro res hres
    rw [matchLoop_nocross h hb hc] at hres
    obtain rfl := Option.some.inj hres
    simp

/-- Every emitted trade names the incoming order as its taker. -/
theorem matchLoop_trades_taker (inc : Order) (opp : BookSide) (g now : Nat) :
    ∀ res, matchLoop inc opp g now = some res →
      ∀ t ∈ res.trades, t.taker_order_id = inc.id := by
  induction inc, opp, g, now using matchLoop.induct with
  | case1 inc opp g now h =>
    intro res hres
    rw [matchLoop_filled h] at hres
    obtain rfl := Option.some.inj hres
    simp
  | case2 inc opp g now h hb =>
    intro res hres
    rw [matchLoop_nobest h hb] at hres
    obtain rfl := Option.some.inj hres
    simp
  | case3 inc opp g now h bp hb hc hl =>
    intro res hres
    have := lookupLevel_isSome_of_mem_keys (bestOpposingPrice_mem hb)
    rw [hl] at this
    simp at this
  | case4 inc opp g now h bp hb hc level hl r opp1 hx ih =>
    intro res hres
    have := matchLoop_isSome r.incoming opp1 r.gen now
    rw [hx] at this
    simp at this
  | case5 inc opp g now h bp hb hc level hl r opp1 r2 hx ih =>
    intro res hres
    have key := ih r2 hx
    have hfld := matchLevel_incoming_fields inc bp level.orders level.total_quantity g now
    have htak := matchLevel_trades_taker inc bp level.orders level.total_quantity g now
    unfold_let r opp1 at hx key
    simp only [dite_eq_ite, List.isEmpty_iff] at hx
    rw [matchLoop_step h hb hc hl] at hres
    simp only [List.isEmpty_iff] at hres
    simp only [hx] at hres
    obtain rfl := Option.some.inj hres
    intro t ht
    rcases List.mem_append.mp ht with ht | ht
    · exact htak t ht
    · exact (key t ht).trans hfld.1
  | case6 inc opp g now h bp hb hc =>
    intro res hres
    rw [matchLoop_nocross h hb hc] at hres
    obtain rfl := Option.some.inj hres
    simp

/-- When the loop stops, either the incoming order is filled or the best
opposing price (if any) no longer crosses it. -/
theorem matchLoop_exit (inc : Order) (opp : BookSide) (g now : Nat) :
    ∀ res, matchLoop inc opp g now = some res →
      res.incoming.is_filled = true ∨
      ∀ p, bestOpposingPrice inc.side res.opposing = some p →
        pricesCross inc.side inc.price p = false := by
  induction inc, opp, g, now using matchLoop.induct with
  | case1 inc opp g now h =>
    intro res hres
    rw [matchLoop_filled h] at hres
    obtain rfl := Option.some.inj hres
    exact Or.inl h
  | case2 inc opp g now h hb =>
    intro res hres
    rw [matchLoop_nobest h hb] at hres
    obtain rfl := Option.some.inj hres
    refine Or.inr fun p hp => ?_
    rw [hb] at hp
    cases hp
  | case3 inc opp g now h bp hb hc hl =>
    intro res hres
    have := lookupLevel_isSome_of_mem_keys (bestOpposingPrice_mem hb)
    rw [hl] at this
    simp at this
  | case4 inc opp g now h bp hb hc level hl r opp1 hx ih =>
    intro res hres
    have := matchLoop_isSome r.incoming opp1 r.gen now
    rw [hx] at this
    simp at this
  | case5 inc opp g now h bp hb hc level hl r opp1 r2 hx ih =>
    intro res hres
    have key := ih r2 hx
    have hfld := matchLevel_incoming_fields inc bp level.orders level.total_quantity g now
    unfold_let r opp1 at hx key
    simp only [dite_eq_ite, List.isEmpty_iff] at hx
    rw [matchLoop_step h hb hc hl] at hres
    simp only [List.isEmpty_iff] at hres
    simp only [hx] at hres
    obtain rfl := Option.some.inj hres
    rw [hfld.2.1, hfld.2.2.1] at key
    exact key
  | case6 inc opp g now h bp hb hc =>
    intro res hres
    rw [matchLoop_nocross h hb hc] at hres
    obtain rfl := Option.some.inj hres
    refine Or.inr fun p hp => ?_
    rw [hb] at hp
    obtain rfl := Option.some.inj hp
    simpa using hc

/-- The loop only removes or rewrites levels: no new price key appears. -/
theorem matchLoop_keys (inc : Order) (opp : BookSide) (g now : Nat) :
    ∀ res, matchLoop inc opp g now = some res →
      ∀ k ∈ keys res.opposing, k ∈ keys opp := by
  induction inc, opp, g, now using matchLoop.induct with
  | case1 inc opp g now h =>
    intro res hres
    rw [matchLoop_filled h] at hres
    obtain rfl := Option.some.inj hres
    simp
  | case2 inc opp g now h hb =>
    intro res hres
    rw [matchLoop_nobest h hb] at hres
    obtain rfl := Option.some.inj hres
    simp
  | case3 inc opp g now h bp hb hc hl =>
    intro res hres
    have := lookupLevel_isSome_of_mem_keys (bestOpposingPrice_mem hb)
    rw [hl] at this
    simp at this
  | case4 inc opp g now h bp hb hc level hl r opp1 hx ih =>
    intro res hres
    have := matchLoop_isSome r.incoming opp1 r.gen now
    rw [hx] at this
    simp at this
  | case5 inc opp g now h bp hb hc level hl r opp1 r2 hx ih =>
    intro res hres
    have key := ih r2 hx
    unfold_let r opp1 at hx key
    simp only [dite_eq_ite, List.isEmpty_iff] at hx key
    rw [matchLoop_step h hb hc hl] at hres
    simp only [List.isEmpty_iff] at hres
    simp only [hx] at hres
    obtain rfl := Option.some.inj hres
    intro k hk
    have h2 := key k hk
    split at h2
    · exact keys_removeLevel_subset k h2
    · rw [keys_setLevel] at h2
      exact h2
  | case6 inc opp g now h bp hb hc =>
    intro res hres
    rw [matchLoop_nocross h hb hc] at hres
    obtain rfl := Option.some.inj hres
    simp

/-- The loop preserves the BTreeMap sortedness invariant. -/
theorem matchLoop_sorted (inc : Order) (opp : BookSide) (g now : Nat) :
    ∀ res, sortedKeys opp → matchLoop inc opp g now = some res →
      sortedKeys res.opposing := by
  induction inc, opp, g, now using matchLoop.induct with
  | case1 inc opp g now h =>
    intro res hs hres
    rw [matchLoop_filled h] at hres
    obtain rfl := Option.some.inj hres
    exact hs
  | case2 inc opp g now h hb =>
    intro res hs hres
    rw [matchLoop_nobest h hb] at hres
    obtain rfl := Option.some.inj hres
    exact hs
  | case3 inc opp g now h bp hb hc hl =>
    intro res hs hres
    have := lookupLevel_isSome_of_mem_keys (bestOpposingPrice_mem hb)
    rw [hl] at this
    simp at this
  | case4 inc opp g now h bp hb hc level hl r opp1 hx ih =>
    intro res hs hres
    have := matchLoop_isSome r.incoming opp1 r.gen now
    rw [hx] at this
    simp at this
  | case5 inc opp g now h bp hb hc level hl r opp1 r2 hx ih =>
    intro res hs hres
    have hs1 : sortedKeys opp1 := by
      unfold_let opp1
      split
      · exact sortedKeys_removeLevel hs
      · exact sortedKeys_setLevel hs
    have key := ih r2 hs1 hx
    unfold_let r opp1 at hx
    simp only [dite_eq_ite, List.isEmpty_iff] at hx
    rw [matchLoop_step h hb hc hl] at hres
    simp only [List.isEmpty_iff] at hres
    simp only [hx] at hres
    obtain rfl := Option.some.inj hres
    exact key
  | case6 inc opp g now h bp hb hc =>
    intro res hs hres
    rw [matchLoop_nocross h hb hc] at hres
    obtain rfl := Option.some.inj hres
    exact hs

/-- Every emitted trade's price is a price level key of the original book. -/
theorem matchLoop_trades_keys (inc : Order) (opp : BookSide) (g now : Nat) :
    ∀ res, matchLoop inc opp g now = some res →
      ∀ t ∈ res.trades, t.price ∈ keys opp := by
  induction inc, opp, g, now using matchLoop.induct with
  | case1 inc opp g now h =>
    intro res hres
    rw [matchLoop_filled h] at hres
    obtain rfl := Option.some.inj hres
    simp
  | case2 inc opp g now h hb =>
    intro res hres
    rw [matchLoop_nobest h hb] at hres
    obtain rfl := Option.some.inj hres
    simp
  | case3 inc opp g now h bp hb hc hl =>
    intro res hres
    have := lookupLevel_isSome_of_mem_keys (bestOpposingPrice_mem hb)
    rw [hl] at this
    simp at this
  | case4 inc opp g now h bp hb hc level hl r opp1 hx ih =>
    intro res hres
    have := matchLoop_isSome r.incoming opp1 r.gen now
    rw [hx] at this
    simp at this
  | case5 inc opp g now h bp hb hc level hl r opp1 r2 hx ih =>
    intro res hres
    have key := ih r2 hx
    have hpr := matchLevel_trades_price inc bp level.orders level.total_quantity g now
    unfold_let r opp1 at hx key
    simp only [dite_eq_ite, List.isEmpty_iff] at hx key
    rw [matchLoop_step h hb hc hl] at hres
    simp only [List.isEmpty_iff] at hres
    simp only [hx] at hres
    obtain rfl := Option.some.inj hres
    intro t ht
    rcases List.mem_append.mp ht with ht | ht
    · rw [hpr t ht]
      exact bestOpposingPrice_mem hb
    · have h2 := key t ht
      split at h2
      · exact keys_removeLevel_subset _ h2
      · rw [keys_setLevel] at h2
        exact h2
  | case6 inc opp g now h bp hb hc =>
    intro res hres
    rw [matchLoop_nocross h hb hc] at hres
    obtain rfl := Option.some.inj hres
    simp

theorem level_orders_subset {opp : BookSide} {bp : Int} {level : PriceLevel}
    (hl : lookupLevel opp bp = some level) :
    ∀ o ∈ level.orders, o ∈ ordersOf opp :=
  fun o ho => mem_ordersOf.mpr ⟨(bp, level), lookupLevel_mem hl, ho⟩

/-- Orders stored after the loop keep the id and price of orders stored
before it. -/
theorem matchLoop_orders_idprice (inc : Order) (opp : BookSide) (g now : Nat) :
    ∀ res, matchLoop inc opp g now = some res →
      ∀ x ∈ ordersOf res.opposing, ∃ o ∈ ordersOf opp, x.id = o.id ∧ x.price = o.price := by
  induction inc, opp, g, now using matchLoop.induct with
  | case1 inc opp g now h =>
    intro res hres
    rw [matchLoop_filled h] at hres
    obtain rfl := Option.some.inj hres
    exact fun x hx => ⟨x, hx, rfl, rfl⟩
  | case2 inc opp g now h hb =>
    intro res hres
    rw [matchLoop_nobest h hb] at hres
    obtain rfl := Option.some.inj hres
    exact fun x hx => ⟨x, hx, rfl, rfl⟩
  | case3 inc opp g now h bp hb hc hl =>
    intro res hres
    have := lookupLevel_isSome_of_mem_keys (bestOpposingPrice_mem hb)
    rw [hl] at this
    simp at this
  | case4 inc opp g now h bp hb hc level hl r opp1 hx ih =>
    intro res hres
    have := matchLoop_isSome r.incoming opp1 r.gen now
    rw [hx] at this
    simp at this
  | case5 inc opp g now h bp hb hc level hl r opp1 r2 hx ih =>
    intro res hres
    have key := ih r2 hx
    have hip := matchLevel_orders_idprice inc bp level.orders level.total_quantity g now
    unfold_let r opp1 at hx key
    simp only [dite_eq_ite, List.isEmpty_iff] at hx key
    rw [matchLoop_step h hb hc hl] at hres
    simp only [List.isEmpty_iff] at hres
    simp only [hx] at hres
    obtain rfl := Option.some.inj hres
    intro x hx2
    obtain ⟨o1, ho1, hxo1⟩ := key x hx2
    have ho1opp : ∃ o ∈ ordersOf opp, o1.id = o.id ∧ o1.price = o.price := by
      split at ho1
      · exact ⟨o1, mem_ordersOf_removeLevel ho1, rfl, rfl⟩
      · rcases mem_ordersOf_setLevel ho1 with h2 | h2
        · obtain ⟨o, ho, h3, h4⟩ := hip o1 h2
          exact ⟨o, level_orders_subset hl o ho, h3, h4⟩
        · exact ⟨o1, h2, rfl, rfl⟩
    obtain ⟨o, ho, h3, h4⟩ := ho1opp
    exact ⟨o, ho, hxo1.1.trans h3, hxo1.2.trans h4⟩
  | case6 inc opp g now h bp hb hc =>
    intro res hres
    rw [matchLoop_nocross h hb hc] at hres
    obtain rfl := Option.some.inj hres
    exact fun x hx => ⟨x, hx, rfl, rfl⟩

/-- The loop preserves the price-consistency of stored orders. -/
theorem matchLoop_priceConsistent (inc : Order) (opp : BookSide) (g now : Nat) :
    ∀ res, priceConsistentSide opp → matchLoop inc opp g now = some res →
      priceConsistentSide res.opposing := by
  induction inc, opp, g, now using matchLoop.induct with
  | case1 inc opp g now h =>
    intro res hpc hres
    rw [matchLoop_filled h] at hres
    obtain rfl := Option.some.inj hres
    exact hpc
  | case2 inc opp g now h hb =>
    intro res hpc hres
    rw [matchLoop_nobest h hb] at hres
    obtain rfl := Option.some.inj hres
    exact hpc
  | case3 inc opp g now h bp hb hc hl =>
    intro res hpc hres
    have := lookupLevel_isSome_of_mem_keys (bestOpposingPrice_mem hb)
    rw [hl] at this
    simp at this
  | case4 inc opp g now h bp hb hc level hl r opp1 hx ih =>
    intro res hpc hres
    have := matchLoop_isSome r.incoming opp1 r.gen now
    rw [hx] at this
    simp at this
  | case5 inc opp g now h bp hb hc level hl r opp1 r2 hx ih =>
    intro res hpc hres
    have hip := matchLevel_orders_idprice inc bp level.orders level.total_quantity g now
    have hlevpc : ∀ o ∈ level.orders, o.price = bp :=
      fun o ho => hpc (bp, level) (lookupLevel_mem hl) o ho
    have hpc1 : priceConsistentSide opp1 := by
      unfold_let opp1
      split
      · exact priceConsistentSide_removeLevel hpc
      · refine priceConsistentSide_setLevel hpc ?_
        intro o ho
        obtain ⟨o0, ho0, h3, h4⟩ := hip o ho
        exact h4.trans (hlevpc o0 ho0)
    have key := ih r2 hpc1 hx
    unfold_let r opp1 at hx
    simp only [dite_eq_ite, List.isEmpty_iff] at hx
    rw [matchLoop_step h hb hc hl] at hres
    simp only [List.isEmpty_iff] at hres
    simp only [hx] at hres
    obtain rfl := Option.some.inj hres
    exact key
  | case6 inc opp g now h bp hb hc =>
    intro res hpc hres
    rw [matchLoop_nocross h hb hc] at hres
    obtain rfl := Option.some.inj hres
    exact hpc

/-- The loop preserves the cached level totals. -/
theorem matchLoop_levelsOk (inc : Order) (opp : BookSide) (g now : Nat) :
    ∀ res, levelsOk opp → matchLoop inc opp g now = some res →
      levelsOk res.opposing := by
  induction inc, opp, g, now using matchLoop.induct with
  | case1 inc opp g now h =>
    intro res hok hres
    rw [matchLoop_filled h] at hres
    obtain rfl := Option.some.inj hres
    exact hok
  | case2 inc opp g now h hb =>
    intro res hok hres
    rw [matchLoop_nobest h hb] at hres
    obtain rfl := Option.some.inj hres
    exact hok
  | case3 inc opp g now h bp hb hc hl =>
    intro res hok hres
    have := lookupLevel_isSome_of_mem_keys (bestOpposingPrice_mem hb)
    rw [hl] at this
    simp at this
  | case4 inc opp g now h bp hb hc level hl r opp1 hx ih =>
    intro res hok hres
    have := matchLoop_isSome r.incoming opp1 r.gen now
    rw [hx] at this
    simp at this
  | case5 inc opp g now h bp hb hc level hl r opp1 r2 hx ih =>
    intro res hok hres
    have htot := matchLevel_totals inc bp level.orders level.total_quantity g now
      (hok (bp, level) (lookupLevel_mem hl))
    have hok1 : levelsOk opp1 := by
      unfold_let opp1
      split
      · exact levelsOk_removeLevel hok
      · exact levelsOk_setLevel hok htot
    have key := ih r2 hok1 hx
    unfold_let r opp1 at hx
    simp only [dite_eq_ite, List.isEmpty_iff] at hx
    rw [matchLoop_step h hb hc hl] at hres
    simp only [List.isEmpty_iff] at hres
    simp only [hx] at hres
    obtain rfl := Option.some.inj hres
    exact key
  | case6 inc opp g now h bp hb hc =>
    intro res hok hres
    rw [matchLoop_nocross h hb hc] at hres
    obtain rfl := Option.some.inj hres
    exact hok

/-- The loop keeps every stored order strictly positive and the incoming
order non-negative. -/
theorem matchLoop_pos (inc : Order) (opp : BookSide) (g now : Nat) :
    ∀ res, ordersPosSide opp → 0 ≤ inc.remaining_quantity →
      matchLoop inc opp g now = some res →
      ordersPosSide res.opposing ∧ 0 ≤ res.incoming.remaining_quantity := by
  induction inc, opp, g, now using matchLoop.induct with
  | case1 inc opp g now h =>
    intro res hpos hinc hres
    rw [matchLoop_filled h] at hres
    obtain rfl := Option.some.inj hres
    exact ⟨hpos, hinc⟩
  | case2 inc opp g now h hb =>
    intro res hpos hinc hres
    rw [matchLoop_nobest h hb] at hres
    obtain rfl := Option.some.inj hres
    exact ⟨hpos, hinc⟩
  | case3 inc opp g now h bp hb hc hl =>
    intro res hpos hinc hres
    have := lookupLevel_isSome_of_mem_keys (bestOpposingPrice_mem hb)
    rw [hl] at this
    simp at this
  | case4 inc opp g now h bp hb hc level hl r opp1 hx ih =>
    intro res hpos hinc hres
    have := matchLoop_isSome r.incoming opp1 r.gen now
    rw [hx] at this
    simp at this
  | case5 inc opp g now h bp hb hc level hl r opp1 r2 hx ih =>
    intro res hpos hinc hres
    have hlp := matchLevel_pos inc bp level.orders level.total_quantity g now
      (fun o ho => hpos o (level_orders_subset hl o ho)) hinc
    have hpos1 : ordersPosSide opp1 := by
      unfold_let opp1
      split
      · exact ordersPosSide_removeLevel hpos
      · exact ordersPosSide_setLevel hpos hlp.1
    have key := ih r2 hpos1 hlp.2 hx
    unfold_let r opp1 at hx
    simp only [dite_eq_ite, List.isEmpty_iff] at hx
    rw [matchLoop_step h hb hc hl] at hres
    simp only [List.isEmpty_iff] at hres
    simp only [hx] at hres
    obtain rfl := Option.some.inj hres
    exact key
  | case6 inc opp g now h bp hb hc =>
    intro res hpos hinc hres
    rw [matchLoop_nocross h hb hc] at hres
    obtain rfl := Option.some.inj hres
    exact ⟨hpos, hinc⟩

/-- Every emitted trade executes at the resting price of a maker that was
stored in the book when the loop started. -/
theorem matchLoop_trades_maker (inc : Order) (opp : BookSide) (g now : Nat) :
    ∀ res, priceConsistentSide opp → matchLoop inc opp g now = some res →
      ∀ t ∈ res.trades, ∃ o ∈ ordersOf opp, o.id = t.maker_order_id ∧ o.price = t.price := by
  induction inc, opp, g, now using matchLoop.induct with
  | case1 inc opp g now h =>
    intro res hpc hres
    rw [matchLoop_filled h] at hres
    obtain rfl := Option.some.inj hres
    simp
  | case2 inc opp g now h hb =>
    intro res hpc hres
    rw [matchLoop_nobest h hb] at hres
    obtain rfl := Option.some.inj hres
    simp
  | case3 inc opp g now h bp hb hc hl =>
    intro res hpc hres
    have := lookupLevel_isSome_of_mem_keys (bestOpposingPrice_mem hb)
    rw [hl] at this
    simp at this
  | case4 inc opp g now h bp hb hc level hl r opp1 hx ih =>
    intro res hpc hres
    have := matchLoop_isSome r.incoming opp1 r.gen now
    rw [hx] at this
    simp at this
  | case5 inc opp g now h bp hb hc level hl r opp1 r2 hx ih =>
    intro res hpc hres
    have hip := matchLevel_orders_idprice inc bp level.orders level.total_quantity g now
    have hmm := matchLevel_trades_maker_mem inc bp level.orders level.total_quantity g now
    have hpr := matchLevel_trades_price inc bp level.orders level.total_quantity g now
    have hlevpc : ∀ o ∈ level.orders, o.price = bp :=
      fun o ho => hpc (bp, level) (lookupLevel_mem hl) o ho
    have hpc1 : priceConsistentSide opp1 := by
      unfold_let opp1
      split
      · exact priceConsistentSide_removeLevel hpc
      · refine priceConsistentSide_setLevel hpc ?_
        intro o ho
        obtain ⟨o0, ho0, h3, h4⟩ := hip o ho
        exact h4.trans (hlevpc o0 ho0)
    have key := ih r2 hpc1 hx
    have hsub := matchLoop_orders_idprice r.incoming opp1 r.gen now r2 hx
    unfold_let r opp1 at hx key hsub
    simp only [dite_eq_ite, List.isEmpty_iff] at hx key hsub
    rw [matchLoop_step h hb hc hl] at hres
    simp only [List.isEmpty_iff] at hres
    simp only [hx] at hres
    obtain rfl := Option.some.inj hres
    intro t ht
    rcases List.mem_append.mp ht with ht | ht
    · obtain ⟨o, ho, hid⟩ := hmm t ht
      exact ⟨o, level_orders_subset hl o ho, hid, (hlevpc o ho).trans (hpr t ht).symm⟩
    · obtain ⟨o1, ho1, h3, h4⟩ := key t ht
      have : ∃ o ∈ ordersOf opp, o1.id = o.id ∧ o1.price = o.price := by
        split at ho1
        · exact ⟨o1, mem_ordersOf_removeLevel ho1, rfl, rfl⟩
        · rcases mem_ordersOf_setLevel ho1 with h5 | h5
          · obtain ⟨o, ho, h6, h7⟩ := hip o1 h5
            exact ⟨o, level_orders_subset hl o ho, h6, h7⟩
          · exact ⟨o1, h5, rfl, rfl⟩
      obtain ⟨o, ho, h6, h7⟩ := this
      exact ⟨o, ho, h6.symm.trans h3, h7.symm.trans h4⟩
  | case6 inc opp g now h bp hb hc =>
    intro res hpc hres
    rw [matchLoop_nocross h hb hc] at hres
    obtain rfl := Option.some.inj hres
    simp

/-- Time priority: the first trade produced against any given price level
(identified by filtering the trade list by that level's price) is matched
against the front order of that level's FIFO queue. -/
theorem matchLoop_time_priority (inc : Order) (opp : BookSide) (g now : Nat) :
    ∀ res, sortedKeys opp → matchLoop inc opp g now = some res →
      ∀ p lvl, lookupLevel opp p = some lvl →
        ∀ t, (res.trades.filter (fun x => x.price == p)).head? = some t →
          ∃ o, lvl.orders.head? = some o ∧ t.maker_order_id = o.id := by
  induction inc, opp, g, now using matchLoop.induct with
  | case1 inc opp g now h =>
    intro res hs hres p lvl hlkp t hft
    rw [matchLoop_filled h] at hres
    obtain rfl := Option.some.inj hres
    simp at hft
  | case2 inc opp g now h hb =>
    intro res hs hres p lvl hlkp t hft
    rw [matchLoop_nobest h hb] at hres
    obtain rfl := Option.some.inj hres
    simp at hft
  | case3 inc opp g now h bp hb hc hl =>
    intro res hs hres p lvl hlkp t hft
    have := lookupLevel_isSome_of_mem_keys (bestOpposingPrice_mem hb)
    rw [hl] at this
    simp at this
  | case4 inc opp g now h bp hb hc level hl r opp1 hx ih =>
    intro res hs hres p lvl hlkp t hft
    have := matchLoop_isSome r.incoming opp1 r.gen now
    rw [hx] at this
    simp at this
  | case5 inc opp g now h bp hb hc level hl r opp1 r2 hx ih =>
    intro res hs hres p lvl hlkp t hft
    have hs1 : sortedKeys opp1 := by
      unfold_let opp1
      split
      · exact sortedKeys_removeLevel hs
      · exact sortedKeys_setLevel hs
    have key := ih r2 hs1 hx
    have hkeys := matchLoop_trades_keys r.incoming opp1 r.gen now r2 hx
    have hpr := matchLevel_trades_price inc bp level.orders level.total_quantity g now
    have hhd := matchLevel_head_maker inc bp level.orders level.total_quantity g now
    have hx2 := hx
    unfold_let r opp1 at hx2
    simp only [dite_eq_ite, List.isEmpty_iff] at hx2
    rw [matchLoop_step h hb hc hl] at hres
    simp only [List.isEmpty_iff] at hres
    simp only [hx2] at hres
    obtain rfl := Option.some.inj hres
    rw [List.filter_append] at hft
    by_cases hp : p = bp
    · subst hp
      obtain rfl : lvl = level := Option.some.inj (hlkp.symm.trans hl)
      have hf0 : (matchLevel inc p lvl.orders lvl.total_quantity g now).trades.filter
          (fun x => x.price == p) = (matchLevel inc p lvl.orders lvl.total_quantity g now).trades := by
        refine List.filter_eq_self.mpr ?_
        intro a ha
        simp [hpr a ha]
      have hf2 : List.filter (fun x => x.price == p) r2.trades = [] := by
        rcases matchLevel_orders_or_filled inc p lvl.orders lvl.total_quantity g now with he | hfil
        · refine List.filter_eq_nil_iff.mpr ?_
          intro a ha
          have hk2 := hkeys a ha
          unfold_let opp1 r at hk2
          simp only [dite_eq_ite, List.isEmpty_iff] at hk2
          rw [if_pos he] at hk2
          simp only [beq_iff_eq]
          intro heq
          rw [heq] at hk2
          exact not_mem_keys_removeLevel hs hk2
        · have hstop := @matchLoop_filled
            ((matchLevel inc p lvl.orders lvl.total_quantity g now).incoming) opp1 r.gen now hfil
          have heq2 := hx.symm.trans hstop
          rw [Option.some.inj heq2]
          simp
      rw [hf0, hf2, List.append_nil] at hft
      exact hhd t hft
    · have hf0 : (matchLevel inc bp level.orders level.total_quantity g now).trades.filter
          (fun x => x.price == p) = [] := by
        refine List.filter_eq_nil_iff.mpr ?_
        intro a ha
        simp only [beq_iff_eq]
        rw [hpr a ha]
        exact Ne.symm hp
      rw [hf0, List.nil_append] at hft
      have hlkp1 : lookupLevel opp1 p = some lvl := by
        unfold_let opp1
        split
        · rw [lookupLevel_removeLevel_ne hp]
          exact hlkp
        · rw [lookupLevel_setLevel_ne _ hp]
          exact hlkp
      exact key p lvl hlkp1 t hft
  | case6 inc opp g now h bp hb hc =>
    intro res hs hres p lvl hlkp t hft
    rw [matchLoop_nocross h hb hc] at hres
    obtain rfl := Option.some.inj hres
    simp at hft

theorem sorted_minKey_le {bs : BookSide} (hs : sortedKeys bs) {k : Int} (hk : k ∈ keys bs) :
    ∃ a0, minKey bs = some a0 ∧ a0 ≤ k := by
  unfold minKey
  cases hky : keys bs with
  | nil => rw [hky] at hk; cases hk
  | cons a rest =>
    refine ⟨a, rfl, ?_⟩
    rw [hky] at hk
    unfold sortedKeys at hs
    rw [hky] at hs
    exact sorted_head_le hs rfl hk

theorem sorted_maxKey_ge {bs : BookSide} (hs : sortedKeys bs) {k : Int} (hk : k ∈ keys bs) :
    ∃ m, maxKey bs = some m ∧ k ≤ m := by
  unfold maxKey
  cases hky : (keys bs).getLast? with
  | none =>
    rw [List.getLast?_eq_none_iff] at hky
    rw [hky] at hk
    cases hk
  | some m =>
    refine ⟨m, rfl, ?_⟩
    unfold sortedKeys at hs
    exact sorted_le_getLast hs hky hk

theorem minKey_mem {bs : BookSide} {p : Int} (h : minKey bs = some p) : p ∈ keys bs := by
  unfold minKey at h
  exact List.mem_of_mem_head? (by simp [h])

theorem maxKey_mem {bs : BookSide} {p : Int} (h : maxKey bs = some p) : p ∈ keys bs := by
  unfold maxKey at h
  exact List.mem_of_getLast?_eq_some h

theorem mem_ordersOf_insertOrder {bs : BookSide} {p : Int} {o x : Order}
    (h : x ∈ ordersOf (insertOrder bs p o)) : x = o ∨ x ∈ ordersOf bs := by
  have := (ordersOf_insertOrder_perm bs p o).mem_iff.mp h
  simpa using this

theorem ordersPosSide_insertOrder {bs : BookSide} {p : Int} {o : Order}
    (h : ordersPosSide bs) (ho : 0 < o.remaining_quantity) :
    ordersPosSide (insertOrder bs p o) := by
  intro x hx
  rcases mem_ordersOf_insertOrder hx with rfl | hx
  · exact ho
  · exact h x hx

/-- Bridge between OrderBook::match_order and the outer loop: the returned
trades and supply come from the loop, the opposing side is the loop's final
opposing side, and the order's own side is unchanged (full fill) or receives
exactly the loop's residual incoming order at its limit price. -/
theorem match_order_some (b : OrderBook) (inc : Order) (g now : Nat) :
    ∀ ts b2 g2, b.match_order inc g now = some (ts, b2, g2) →
      ∃ r, matchLoop inc (opposingOf b inc.side) g now = some r ∧
        ts = r.trades ∧ g2 = r.gen ∧ b2.symbol = b.symbol ∧
        opposingOf b2 inc.side = r.opposing ∧
        ((r.incoming.is_filled = true ∧ sideOf b2 inc.side = sideOf b inc.side) ∨
         (¬ r.incoming.is_filled = true ∧
            sideOf b2 inc.side = insertOrder (sideOf b inc.side) r.incoming.price r.incoming)) := by
  intro ts b2 g2 hm
  unfold OrderBook.match_order at hm
  cases hside : inc.side with
  | Buy =>
    rw [hside] at hm
    dsimp only at hm
    cases hloop : matchLoop inc b.asks g now with
    | none =>
      rw [hloop] at hm
      simp at hm
    | some r =>
      have hfs : r.incoming.side = Side.Buy :=
        (matchLoop_incoming_fields inc b.asks g now r hloop).2.1.trans hside
      rw [hloop] at hm
      simp only [Option.some.injEq, Prod.mk.injEq] at hm
      obtain ⟨rfl, hm2, rfl⟩ := hm
      refine ⟨r, ?_, rfl, rfl, ?_, ?_, ?_⟩
      · exact hloop
      · rw [← hm2]
        by_cases hf : r.incoming.is_filled = true
        · simp [hf]
        · simp [hf, OrderBook.add_order, hfs]
      · rw [← hm2]
        by_cases hf : r.incoming.is_filled = true
        · simp [hf, hside, opposingOf]
        · simp [hf, hside, opposingOf, OrderBook.add_order, hfs]
      · by_cases hf : r.incoming.is_filled = true
        · refine Or.inl ⟨hf, ?_⟩
          rw [← hm2]
          simp [hf, hside, sideOf]
        · refine Or.inr ⟨hf, ?_⟩
          rw [← hm2]
          simp [hf, hside, sideOf, OrderBook.add_order, hfs]
  | Sell =>
    rw [hside] at hm
    dsimp only at hm
    cases hloop : matchLoop inc b.bids g now with
    | none =>
      rw [hloop] at hm
      simp at hm
    | some r =>
      have hfs : r.incoming.side = Side.Sell :=
        (matchLoop_incoming_fields inc b.bids g now r hloop).2.1.trans hside
      rw [hloop] at hm
      simp only [Option.some.injEq, Prod.mk.injEq] at hm
      obtain ⟨rfl, hm2, rfl⟩ := hm
      refine ⟨r, ?_, rfl, rfl, ?_, ?_, ?_⟩
      · exact hloop
      · rw [← hm2]
        by_cases hf : r.incoming.is_filled = true
        · simp [hf]
        · simp [hf, OrderBook.add_order, hfs]
      · rw [← hm2]
        by_cases hf : r.incoming.is_filled = true
        · simp [hf, hside, opposingOf]
        · simp [hf, hside, opposingOf, OrderBook.add_order, hfs]
      · by_cases hf : r.incoming.is_filled = true
        · refine Or.inl ⟨hf, ?_⟩
          rw [← hm2]
          simp [hf, hside, sideOf]
        · refine Or.inr ⟨hf, ?_⟩
          rw [← hm2]
          simp [hf, hside, sideOf, OrderBook.add_order, hfs]

/-- The fuel twin computes matchLevel whenever given enough fuel. -/
theorem matchLevelFuel_correct (inc : Order) (bp : Int) (os : List Order) (tq : Int) (g now : Nat) :
    ∀ fuel, os.length * 2 + 2 ≤ fuel →
      matchLevelFuel fuel inc bp os tq g now = some (matchLevel inc bp os tq g now) := by
  induction inc, bp, os, tq, g, now using matchLevel.induct with
  | case1 inc bp os tq g now h =>
    intro fuel hfu
    cases fuel with
    | zero => omega
    | succ n =>
      rw [matchLevel_filled _ _ _ _ _ h]
      simp [matchLevelFuel, h]
  | case2 inc bp tq g now h =>
    intro fuel hfu
    cases fuel with
    | zero => omega
    | succ n =>
      rw [matchLevel_nil _ _ _ _ h]
      simp [matchLevelFuel, h]
  | case3 inc bp tq g now hnf maker rest fq i1 m1 t1 hmf ih =>
    intro fuel hfu
    cases fuel with
    | zero => omega
    | succ n =>
      unfold_let i1 m1 t1 fq at hmf ih
      rw [matchLevel_cons_pop hnf hmf]
      have hn : rest.length * 2 + 2 ≤ n := by
        simp only [List.length_cons] at hfu
        omega
      simp only [matchLevelFuel, hnf, hmf, if_false, if_true, Bool.false_eq_true]
      rw [ih n hn]
  | case4 inc bp tq g now hnf maker rest fq i1 m1 t1 hmf ih =>
    intro fuel hfu
    cases fuel with
    | zero => omega
    | succ n =>
      unfold_let i1 m1 t1 fq at hmf ih
      rw [matchLevel_cons_keep hnf hmf]
      have hfil : (inc.fill (min inc.remaining_quantity maker.remaining_quantity)).is_filled = true := by
        simp only [Order.is_filled, Order.fill_remaining, beq_iff_eq] at hmf ⊢
        omega
      cases n with
      | zero => simp only [List.length_cons] at hfu; omega
      | succ m =>
        simp only [matchLevelFuel, hnf, hmf, hfil, if_false, if_true, Bool.false_eq_true]
        rw [matchLevel_filled _ _ _ _ _ hfil]

/-- The fuel twin computes matchLoop whenever given enough fuel. -/
theorem matchLoopFuel_correct (inc : Order) (opp : BookSide) (g now : Nat) :
    ∀ fuel, opp.length * 2 + 2 ≤ fuel →
      matchLoopFuel fuel inc opp g now = some (matchLoop inc opp g now) := by
  induction inc, opp, g, now using matchLoop.induct with
  | case1 inc opp g now h =>
    intro fuel hfu
    cases fuel with
    | zero => omega
    | succ n =>
      rw [matchLoop_filled h]
      simp [matchLoopFuel, h]
  | case2 inc opp g now h hb =>
    intro fuel hfu
    cases fuel with
    | zero => omega
    | succ n =>
      rw [matchLoop_nobest h hb]
      simp [matchLoopFuel, h, hb]
  | case3 inc opp g now h bp hb hc hl =>
    intro fuel hfu
    have := lookupLevel_isSome_of_mem_keys (bestOpposingPrice_mem hb)
    rw [hl] at this
    simp at this
  | case4 inc opp g now h bp hb hc level hl r opp1 hx ih =>
    intro fuel hfu
    have := matchLoop_isSome r.incoming opp1 r.gen now
    rw [hx] at this
    simp at this
  | case5 inc opp g now h bp hb hc level hl r opp1 r2 hx ih =>
    intro fuel hfu
    cases fuel with
    | zero => omega
    | succ n =>
      have hx2 := hx
      have hlev := matchLevelFuel_correct inc bp level.orders level.total_quantity g now
        (level.orders.length * 2 + 2) (by omega)
      have hrm := removeLevel_length hl
      have hrec : matchLoopFuel n r.incoming opp1 r.gen now = some (matchLoop r.incoming opp1 r.gen now) := by
        rcases matchLevel_orders_or_filled inc bp level.orders level.total_quantity g now with he | hfil
        · apply ih
          have hlen : opp1.length < opp.length := by
            unfold_let opp1 r
            simp only [dite_eq_ite, List.isEmpty_iff]
            rw [if_pos he]
            omega
          omega
        · cases n with
          | zero => omega
          | succ m =>
            have hbase := @matchLoop_filled r.incoming opp1 r.gen now hfil
            rw [hbase]
            simp [matchLoopFuel, hfil]
      unfold_let r opp1 at hx2 hrec
      simp only [dite_eq_ite, List.isEmpty_iff] at hx2 hrec
      rw [matchLoop_step h hb hc hl]
      simp only [List.isEmpty_iff]
      simp only [hx2]
      simp only [matchLoopFuel, h, hb, hc, hl, if_false, if_true, Bool.false_eq_true]
      rw [hlev]
      simp only [List.isEmpty_iff]
      rw [hrec, hx2]
  | case6 inc opp g now h bp hb hc =>
    intro fuel hfu
    cases fuel with
    | zero => omega
    | succ n =>
      rw [matchLoop_nocross h hb hc]
      simp [matchLoopFuel, h, hb, hc]

/-- The executable twin computes match_order. -/
theorem match_orderExec_correct (b : OrderBook) (inc : Order) (g now : Nat) :
    match_orderExec b inc g now = some (b.match_order inc g now) := by
  unfold match_orderExec OrderBook.match_order
  cases hside : inc.side with
  | Buy =>
    dsimp only
    rw [matchLoopFuel_correct inc b.asks g now (b.asks.length * 2 + 2) (by omega)]
    cases matchLoop inc b.asks g now with
    | none => rfl
    | some r => rfl
  | Sell =>
    dsimp only
    rw [matchLoopFuel_correct inc b.bids g now (b.bids.length * 2 + 2) (by omega)]
    cases matchLoop inc b.bids g now with
    | none => rfl
    | some r => rfl

/-- Evaluation principle: concrete match_order results can be computed via
the executable twin. -/
theorem match_order_eval {b : OrderBook} {inc : Order} {g now : Nat}
    {x : Option (List Trade × OrderBook × Nat)}
    (h : match_orderExec b inc g now = some x) : b.match_order inc g now = x := by
  have h2 := match_orderExec_correct b inc g now
  rw [h] at h2
  exact (Option.some.inj h2).symm

theorem nonCrossedB_sound {b : OrderBook} (h : nonCrossedB b = true) : nonCrossed b := by
  intro bb ba hbb hba
  unfold nonCrossedB at h
  rw [hbb, hba] at h
  simpa using h

/- ================================================================
   Claim theorems.
   ================================================================ -/

/-- C7: scenario S5 — a book whose asks are 100:5, 101:5, 102:5 (empty bids)
receiving Buy(price 102, qty 12) produces exactly 3 trades, in order
(100, 5), (101, 5), (102, 2); afterwards the ask side is the single level
102 with total quantity 3, and the bid side is empty (no residual). -/
theorem match_order_scenario_s5 :
    bookS5.match_order buyS5 4 9 = some (tradesS5, bookS5out, 7) ∧
    tradesS5.map (fun t => (t.price, t.quantity)) = [(100, 5), (101, 5), (102, 2)] ∧
    bookS5out.asks.map (fun e => (e.1, e.2.total_quantity)) = [(102, 3)] ∧
    bookS5out.bids = [] :=
  ⟨match_order_eval (by decide), by decide, by decide, rfl⟩

/-- C8: match_order is a total, terminating function: for every book whose
orders have non-negative remaining quantities and every incoming order with
non-negative remaining quantity, it returns a trade list without any error
outcome — the level lookup after a found best price never fails.  (In this
embedding the `some` result is exactly the absence of the unwrap panic, and
totality of the Lean function is termination.) -/
theorem match_order_total (b : OrderBook) (inc : Order) (g now : Nat)
    (hbpos : ∀ o ∈ ordersOf b.bids, 0 ≤ o.remaining_quantity)
    (hapos : ∀ o ∈ ordersOf b.asks, 0 ≤ o.remaining_quantity)
    (hipos : 0 ≤ inc.remaining_quantity) :
    (b.match_order inc g now).isSome = true := by
  unfold OrderBook.match_order
  cases hside : inc.side with
  | Buy =>
    dsimp only
    obtain ⟨r, hr⟩ := Option.isSome_iff_exists.mp (matchLoop_isSome inc b.asks g now)
    rw [hr]
    rfl
  | Sell =>
    dsimp only
    obtain ⟨r, hr⟩ := Option.isSome_iff_exists.mp (matchLoop_isSome inc b.bids g now)
    rw [hr]
    rfl

/-- Witness for C8 at a concrete book and order. -/
theorem match_order_total_witness : (bookW.match_order buyW 20 5).isSome = true :=
  match_order_total bookW buyW 20 5 (by decide) (by decide) (by decide)

/-- C1 (code bug in the source): api/orders.rs submit_order draws a fresh
uuid for the 202 response (line 78), but the OrderRequest forwarded to the
engine (lines 81-85) carries no id, and MatchingEngine::process_order draws
a second, independent uuid for the Order it matches (matcher.rs line 62 via
Order::new).  The response order_id therefore never identifies the order the
engine processes.  Concretely: submitting buy 100 x 10 returns
order_id = some 0, while the engine processes the order under id 1 and the
resulting trade's taker_order_id is 1 ≠ 0. -/
theorem submit_order_id_mismatch :
    (submit_order { side := "buy", price := 100, quantity := 10 } 0).1.1 = HttpStatus.accepted ∧
    (submit_order { side := "buy", price := 100, quantity := 10 } 0).1.2.order_id = some 0 ∧
    (submit_order { side := "buy", price := 100, quantity := 10 } 0).2.1 =
      some { side := Side.Buy, price := 100, quantity := 10 } ∧
    process_order bookC1 { side := Side.Buy, price := 100, quantity := 10 } 1 7 =
      some (1, [{ id := 2, taker_order_id := 1, maker_order_id := 50, price := 100,
                  quantity := 10, taker_side := Side.Buy, timestamp := 7 }],
            OrderBook.new "X", 3) ∧
    (1 : Nat) ≠ 0 := by
  have hmo : bookC1.match_order (Order.new Side.Buy 100 10 1 7) 2 7 =
      some ([{ id := 2, taker_order_id := 1, maker_order_id := 50, price := 100,
               quantity := 10, taker_side := Side.Buy, timestamp := 7 }],
            OrderBook.new "X", 3) :=
    match_order_eval (by decide)
  refine ⟨by decide, by decide, by decide, ?_, by decide⟩
  unfold process_order
  dsimp only
  rw [hmo]
  rfl

theorem sideOf_cases {b2 : OrderBook} {s : Side} {P : BookSide → Prop}
    (h1 : P (sideOf b2 s)) (h2 : P (opposingOf b2 s)) : P b2.bids ∧ P b2.asks := by
  cases s
  · exact ⟨h1, h2⟩
  · exact ⟨h2, h1⟩

theorem sideOf_pick {b : OrderBook} {P : BookSide → Prop}
    (h1 : P b.bids) (h2 : P b.asks) (s : Side) : P (sideOf b s) := by
  cases s
  · exact h1
  · exact h2

theorem opposingOf_pick {b : OrderBook} {P : BookSide → Prop}
    (h1 : P b.bids) (h2 : P b.asks) (s : Side) : P (opposingOf b s) := by
  cases s
  · exact h2
  · exact h1

/-- C2: conservation of quantity.  For every book and incoming (freshly
constructed, so remaining = original) order with positive quantity, whose
book orders all have positive remaining quantities and whose id is fresh for
its own side, the original quantity equals the total executed trade quantity
plus the remaining quantity of the residual rested in the book (zero when
the order was fully consumed). -/
theorem match_order_conservation (b : OrderBook) (inc : Order) (g now : Nat)
    (ts : List Trade) (b2 : OrderBook) (g2 : Nat)
    (hfresh : inc.remaining_quantity = inc.quantity)
    (hq : 0 < inc.remaining_quantity)
    (hpos : ordersPos b)
    (hid : ∀ o ∈ ordersOf (sideOf b inc.side), o.id ≠ inc.id)
    (hm : b.match_order inc g now = some (ts, b2, g2)) :
    inc.quantity =
      sumQty ts + sumRem ((ordersOf (sideOf b2 inc.side)).filter (fun o => o.id == inc.id)) := by
  obtain ⟨r, hloop, rfl, rfl, hsym, hopp, hcase⟩ := match_order_some b inc g now _ _ _ hm
  have hcons := matchLoop_conservation inc (opposingOf b inc.side) g now r hloop
  have hfld := matchLoop_incoming_fields inc (opposingOf b inc.side) g now r hloop
  have hflt0 : (ordersOf (sideOf b inc.side)).filter (fun o => o.id == inc.id) = [] := by
    refine List.filter_eq_nil_iff.mpr ?_
    intro o ho
    simpa using hid o ho
  rcases hcase with ⟨hf, hside_eq⟩ | ⟨hf, hside_eq⟩
  · rw [hside_eq, hflt0]
    have hzero : r.incoming.remaining_quantity = 0 := by
      simpa [Order.is_filled] using hf
    rw [← hfresh]
    simpa [hzero] using hcons
  · rw [hside_eq]
    have hperm := (ordersOf_insertOrder_perm (sideOf b inc.side) r.incoming.price
      r.incoming).filter (fun o => o.id == inc.id)
    have hsum : sumRem ((ordersOf (insertOrder (sideOf b inc.side) r.incoming.price
        r.incoming)).filter (fun o => o.id == inc.id)) =
        sumRem ((r.incoming :: ordersOf (sideOf b inc.side)).filter (fun o => o.id == inc.id)) := by
      unfold sumRem
      exact List.Perm.sum_eq (hperm.map _)
    rw [hsum, List.filter_cons_of_pos (by simp [hfld.1]), hflt0]
    simp only [sumRem_cons, sumRem_nil]
    rw [← hfresh]
    omega

/-- C9: frame property of match_order.  The incoming order's own side of the
book is unchanged when the order is fully consumed (executed quantity equals
its remaining quantity); otherwise exactly one order — the residual, carrying
the incoming order's id, limit price and side — is appended to the level at
its limit price, and nothing else on that side changes. -/
theorem match_order_frame (b : OrderBook) (inc : Order) (g now : Nat)
    (ts : List Trade) (b2 : OrderBook) (g2 : Nat)
    (hm : b.match_order inc g now = some (ts, b2, g2)) :
    (sumQty ts = inc.remaining_quantity → sideOf b2 inc.side = sideOf b inc.side) ∧
    (sumQty ts ≠ inc.remaining_quantity →
      ∃ residual : Order, residual.id = inc.id ∧ residual.price = inc.price ∧
        residual.side = inc.side ∧
        residual.remaining_quantity = inc.remaining_quantity - sumQty ts ∧
        sideOf b2 inc.side = insertOrder (sideOf b inc.side) inc.price residual) := by
  obtain ⟨r, hloop, rfl, rfl, hsym, hopp, hcase⟩ := match_order_some b inc g now _ _ _ hm
  have hcons := matchLoop_conservation inc (opposingOf b inc.side) g now r hloop
  have hfld := matchLoop_incoming_fields inc (opposingOf b inc.side) g now r hloop
  constructor
  · intro hsum
    rcases hcase with ⟨hf, hs⟩ | ⟨hf, hs⟩
    · exact hs
    · exfalso
      have : r.incoming.remaining_quantity ≠ 0 := by
        simpa [Order.is_filled] using hf
      omega
  · intro hsum
    rcases hcase with ⟨hf, hs⟩ | ⟨hf, hs⟩
    · exfalso
      have : r.incoming.remaining_quantity = 0 := by
        simpa [Order.is_filled] using hf
      omega
    · refine ⟨r.incoming, hfld.1, hfld.2.2.1, hfld.2.1, by omega, ?_⟩
      rw [hs, hfld.2.2.1]

/-- C10: no fully-filled order remains stored in the book: starting from a
book whose stored orders all have positive remaining quantity and an
incoming order with positive quantity, every order stored after match_order
still has positive remaining quantity. -/
theorem match_order_no_filled_rests (b : OrderBook) (inc : Order) (g now : Nat)
    (ts : List Trade) (b2 : OrderBook) (g2 : Nat)
    (hpos : ordersPos b) (hq : 0 < inc.remaining_quantity)
    (hm : b.match_order inc g now = some (ts, b2, g2)) :
    ordersPos b2 := by
  obtain ⟨r, hloop, rfl, rfl, hsym, hopp, hcase⟩ := match_order_some b inc g now _ _ _ hm
  have hlp := matchLoop_pos inc (opposingOf b inc.side) g now r
    (opposingOf_pick hpos.1 hpos.2 inc.side) (le_of_lt hq) hloop
  have h1 : ordersPosSide (opposingOf b2 inc.side) := by
    rw [hopp]
    exact hlp.1
  have h2 : ordersPosSide (sideOf b2 inc.side) := by
    rcases hcase with ⟨hf, hs⟩ | ⟨hf, hs⟩
    · rw [hs]
      exact sideOf_pick hpos.1 hpos.2 inc.side
    · rw [hs]
      refine ordersPosSide_insertOrder (sideOf_pick hpos.1 hpos.2 inc.side) ?_
      have hne : r.incoming.remaining_quantity ≠ 0 := by
        simpa [Order.is_filled] using hf
      have := hlp.2
      omega
  exact sideOf_cases h2 h1

/-- C4: every trade returned by match_order has a price equal to the resting
price of the maker it was matched against (the key of the opposing price
level), and hence never equals the incoming taker's limit price when those
differ.  The hypothesis is the structural invariant that stored orders carry
the price of the level they rest at. -/
theorem match_order_maker_price (b : OrderBook) (inc : Order) (g now : Nat)
    (ts : List Trade) (b2 : OrderBook) (g2 : Nat)
    (hpc : priceConsistentSide (opposingOf b inc.side))
    (hm : b.match_order inc g now = some (ts, b2, g2)) :
    ∀ t ∈ ts, ∃ o ∈ ordersOf (opposingOf b inc.side),
      o.id = t.maker_order_id ∧ t.price = o.price ∧
      (o.price ≠ inc.price → t.price ≠ inc.price) := by
  obtain ⟨r, hloop, rfl, rfl, hsym, hopp, hcase⟩ := match_order_some b inc g now _ _ _ hm
  intro t ht
  obtain ⟨o, ho, h1, h2⟩ :=
    matchLoop_trades_maker inc (opposingOf b inc.side) g now r hpc hloop t ht
  exact ⟨o, ho, h1, h2.symm, fun hne heq => hne (h2.trans heq)⟩

/-- C5: time priority.  For a sorted book, the maker of the first trade
produced against any given price level (the trades at that level's price)
is the order at the front of that level's FIFO queue — the earliest-arrived
order at that price, given the queue is in arrival order. -/
theorem match_order_first_trade_front (b : OrderBook) (inc : Order) (g now : Nat)
    (ts : List Trade) (b2 : OrderBook) (g2 : Nat) (p : Int) (lvl : PriceLevel)
    (hs : sortedKeys (opposingOf b inc.side))
    (hlkp : lookupLevel (opposingOf b inc.side) p = some lvl)
    (hm : b.match_order inc g now = some (ts, b2, g2)) :
    ∀ t, (ts.filter (fun x => x.price == p)).head? = some t →
      ∃ o, lvl.orders.head? = some o ∧ t.maker_order_id = o.id := by
  obtain ⟨r, hloop, rfl, rfl, hsym, hopp, hcase⟩ := match_order_some b inc g now _ _ _ hm
  exact matchLoop_time_priority inc (opposingOf b inc.side) g now r hs hloop p lvl hlkp

/-- C6: the level-total invariant (each level's cached total_quantity equals
the sum of remaining quantities of its queued orders) is preserved both by
add_order and by match_order, given it held before and all quantities
involved are positive. -/
theorem level_totals_preserved (b : OrderBook) (o inc : Order) (g now : Nat)
    (hok : levelTotalsOk b) (hpos : ordersPos b)
    (hqo : 0 < o.remaining_quantity) (hqi : 0 < inc.remaining_quantity) :
    levelTotalsOk (b.add_order o) ∧
    (∀ ts b2 g2, b.match_order inc g now = some (ts, b2, g2) → levelTotalsOk b2) := by
  constructor
  · unfold OrderBook.add_order
    cases o.side with
    | Buy => exact ⟨levelsOk_insertOrder hok.1, hok.2⟩
    | Sell => exact ⟨hok.1, levelsOk_insertOrder hok.2⟩
  · intro ts b2 g2 hm
    obtain ⟨r, hloop, rfl, rfl, hsym, hopp, hcase⟩ := match_order_some b inc g now _ _ _ hm
    have h1 : levelsOk (opposingOf b2 inc.side) := by
      rw [hopp]
      exact matchLoop_levelsOk inc (opposingOf b inc.side) g now r
        (opposingOf_pick hok.1 hok.2 inc.side) hloop
    have h2 : levelsOk (sideOf b2 inc.side) := by
      rcases hcase with ⟨hf, hs⟩ | ⟨hf, hs⟩
      · rw [hs]
        exact sideOf_pick hok.1 hok.2 inc.side
      · rw [hs]
        exact levelsOk_insertOrder (sideOf_pick hok.1 hok.2 inc.side)
    exact sideOf_cases h2 h1

/-- C3: match_order preserves the non-crossed book invariant.  For every
sorted book whose stored orders have positive remaining quantity and in
which best_bid < best_ask whenever both exist, after matching any incoming
order with positive quantity the property still holds. -/
theorem match_order_noncrossed (b : OrderBook) (inc : Order) (g now : Nat)
    (ts : List Trade) (b2 : OrderBook) (g2 : Nat)
    (hsb : sortedKeys b.bids) (hsa : sortedKeys b.asks)
    (hpos : ordersPos b) (hq : 0 < inc.remaining_quantity)
    (hnc : nonCrossed b)
    (hm : b.match_order inc g now = some (ts, b2, g2)) :
    nonCrossed b2 := by
  obtain ⟨r, hloop, rfl, rfl, hsym, hopp, hcase⟩ := match_order_some b inc g now _ _ _ hm
  have hkeys := matchLoop_keys inc (opposingOf b inc.side) g now r hloop
  have hexit := matchLoop_exit inc (opposingOf b inc.side) g now r hloop
  have hfld := matchLoop_incoming_fields inc (opposingOf b inc.side) g now r hloop
  intro bb ba hbb hba
  have hbb2 : maxKey b2.bids = some bb := hbb
  have hba2 : minKey b2.asks = some ba := hba
  cases hside : inc.side with
  | Buy =>
    have hopp2 : b2.asks = r.opposing := by
      rw [hside] at hopp
      exact hopp
    have hbam : ba ∈ keys r.opposing := by
      rw [← hopp2]
      exact minKey_mem hba2
    have hbaopp : ba ∈ keys b.asks := by
      have h3 := hkeys ba hbam
      rw [hside] at h3
      exact h3
    obtain ⟨a0, ha0, ha0le⟩ := sorted_minKey_le hsa hbaopp
    rcases hcase with ⟨hf, hs⟩ | ⟨hf, hs⟩
    · have hbids : b2.bids = b.bids := by
        rw [hside] at hs
        exact hs
      have hbmax : b.best_bid = some bb := by
        show maxKey b.bids = some bb
        rw [← hbids]
        exact hbb2
      have hlt := hnc bb a0 hbmax ha0
      omega
    · have hbids : b2.bids = insertOrder b.bids r.incoming.price r.incoming := by
        rw [hside] at hs
        exact hs
      have hbbmem : bb ∈ keys b2.bids := maxKey_mem hbb2
      rw [hbids] at hbbmem
      rcases mem_keys_insertOrder hbbmem with hbbp | hbbmem2
      · rcases hexit with hfil | hnc2
        · exact absurd hfil hf
        · have hbest : bestOpposingPrice inc.side r.opposing = some ba := by
            rw [hside]
            show minKey r.opposing = some ba
            rw [← hopp2]
            exact hba2
          have hcross := hnc2 ba hbest
          have hc2 : pricesCross Side.Buy inc.price ba = false := by
            rw [← hside]
            exact hcross
          have hlt : ¬ (ba ≤ inc.price) := by
            simpa [pricesCross] using hc2
          rw [hbbp, hfld.2.2.1]
          omega
      · obtain ⟨m, hmk, hble⟩ := sorted_maxKey_ge hsb hbbmem2
        have hlt := hnc m a0 hmk ha0
        omega
  | Sell =>
    have hopp2 : b2.bids = r.opposing := by
      rw [hside] at hopp
      exact hopp
    have hbbm : bb ∈ keys r.opposing := by
      rw [← hopp2]
      exact maxKey_mem hbb2
    have hbbopp : bb ∈ keys b.bids := by
      have h3 := hkeys bb hbbm
      rw [hside] at h3
      exact h3
    obtain ⟨m, hmk, hble⟩ := sorted_maxKey_ge hsb hbbopp
    rcases hcase with ⟨hf, hs⟩ | ⟨hf, hs⟩
    · have hasks : b2.asks = b.asks := by
        rw [hside] at hs
        exact hs
      have hamin : b.best_ask = some ba := by
        show minKey b.asks = some ba
        rw [← hasks]
        exact hba2
      have hlt := hnc m ba hmk hamin
      omega
    · have hasks : b2.asks = insertOrder b.asks r.incoming.price r.incoming := by
        rw [hside] at hs
        exact hs
      have hbamem : ba ∈ keys b2.asks := minKey_mem hba2
      rw [hasks] at hbamem
      rcases mem_keys_insertOrder hbamem with hbap | hbamem2
      · rcases hexit with hfil | hnc2
        · exact absurd hfil hf
        · have hbest : bestOpposingPrice inc.side r.opposing = some bb := by
            rw [hside]
            show maxKey r.opposing = some bb
            rw [← hopp2]
            exact hbb2
          have hcross := hnc2 bb hbest
          have hc2 : pricesCross Side.Sell inc.price bb = false := by
            rw [← hside]
            exact hcross
          have hlt : ¬ (inc.price ≤ bb) := by
            simpa [pricesCross] using hc2
          rw [hbap, hfld.2.2.1]
          omega
      · obtain ⟨a0, ha0, ha0le⟩ := sorted_minKey_le hsa hbamem2
        have hlt := hnc m a0 hmk ha0
        omega

/-- Witness for C2 at a concrete partial fill. -/
theorem match_order_conservation_witness :
    buyW.quantity = sumQty tradesW +
      sumRem ((ordersOf (sideOf bookWout buyW.side)).filter (fun o => o.id == buyW.id)) :=
  match_order_conservation bookW buyW 20 5 tradesW bookWout 21 (by decide) (by decide)
    (by decide) (by decide) (match_order_eval (by decide))

/-- Witness for C3 at a concrete match. -/
theorem match_order_noncrossed_witness : nonCrossed bookWout :=
  match_order_noncrossed bookW buyW 20 5 tradesW bookWout 21 (by decide) (by decide)
    (by decide) (by decide) (nonCrossedB_sound (by decide)) (match_order_eval (by decide))

/-- Witness for C4 at a concrete trade. -/
theorem match_order_maker_price_witness :
    ∃ o ∈ ordersOf (opposingOf bookW buyW.side),
      o.id = tradeW0.maker_order_id ∧ tradeW0.price = o.price ∧
      (o.price ≠ buyW.price → tradeW0.price ≠ buyW.price) :=
  match_order_maker_price bookW buyW 20 5 tradesW bookWout 21 (by decide)
    (match_order_eval (by decide)) tradeW0 (by decide)

/-- Witness for C5 at scenario S4: the maker of the only trade is the
earlier-arrived of the two equal-priced sells. -/
theorem match_order_first_trade_front_witness :
    ∃ o, lvl4.orders.head? = some o ∧ trade40.maker_order_id = o.id :=
  match_order_first_trade_front book4 buy4 40 7 trades4 book4out 41 100 lvl4
    (by decide) (by decide) (match_order_eval (by decide)) trade40 (by decide)

/-- Witness for C6 at a concrete insertion and match. -/
theorem level_totals_preserved_witness :
    levelTotalsOk (bookW.add_order addW) ∧ levelTotalsOk bookWout :=
  ⟨(level_totals_preserved bookW addW buyW 20 5 (by decide) (by decide) (by decide)
      (by decide)).1,
   (level_totals_preserved bookW addW buyW 20 5 (by decide) (by decide) (by decide)
      (by decide)).2 tradesW bookWout 21 (match_order_eval (by decide))⟩

/-- Witness for C9 at a concrete taker residual. -/
theorem match_order_frame_witness :
    ∃ residual : Order, residual.id = buyBig.id ∧ residual.price = buyBig.price ∧
      residual.side = buyBig.side ∧
      residual.remaining_quantity = buyBig.remaining_quantity - sumQty tradesBig ∧
      sideOf bookBigOut buyBig.side = insertOrder (sideOf bookW buyBig.side) buyBig.price residual :=
  (match_order_frame bookW buyBig 30 6 tradesBig bookBigOut 31
    (match_order_eval (by decide))).2 (by decide)

/-- Witness for C10 at a concrete taker residual. -/
theorem match_order_no_filled_rests_witness : ordersPos bookBigOut :=
  match_order_no_filled_rests bookW buyBig 30 6 tradesBig bookBigOut 31 (by decide) (by decide)
    (match_order_eval (by decide))

end Clob
